import Mathlib

/-!
Shallow embedding of the core of the OS page-replacement simulator
(`src/app.js`): the pure simulation engine `SimulationLogic`
(`runFIFO`, `runLRU`, `runOptimal`, `run`) and the playback controller
`Animator` (`stepForward`, `stepBackward`, `drawCurrentState`).

Page identifiers are modelled as `Int` (the source parses them with
`parseInt`), a frame slot as `Option Int` (`none` is the source's `null`),
and the cumulative statistics object as a record of naturals.  JavaScript
array operations are translated operation by operation:
`includes` is `List.contains`, `indexOf` is `List.indexOf` (with the
convention that an out-of-range `List.set` changes nothing, exactly as the
source's `frames[-1] = page` changes no slot), `push` appends, `shift`
takes the head, `unshift` conses, `pop` takes the last element, and
`splice(indexOf(p), 1)` is `List.erase` when the element is present.
-/

namespace PageSim

/-- Cumulative statistics carried through a run: `{ hits, faults, total }`. -/
structure Stats where
  hits : Nat
  faults : Nat
  total : Nat
deriving Repr, DecidableEq

/-- One history entry, as produced by `SimulationLogic.createState`:
the step index, the referenced page, the frames *after* the step, the
hit flag, the evicted page (if any), a copy of the helper structure
(FIFO queue / LRU stack / remaining reference string for Optimal), the
narration string, and the cumulative statistics. -/
structure StepSnapshot where
  step : Nat
  page : Int
  frames : List (Option Int)
  isHit : Bool
  pageToEvict : Option Int
  helperQueue : List Int
  message : String
  stats : Stats
deriving Repr, DecidableEq

/-- The engine's working state during a run: the frame array, the
policy's helper structure, and the statistics object. -/
structure MachineState where
  frames : List (Option Int)
  helper : List Int
  stats : Stats
deriving Repr, DecidableEq

/-- Narration for the messages built in the source: the common head
`Step ${step + 1} (Page ${page}): `. -/
def msgHead (step : Nat) (page : Int) : String :=
  "Step " ++ toString (step + 1) ++ " (Page " ++ toString page ++ "): "

/-- Narration for a hit. -/
def hitText (page : Int) : String :=
  "Page " ++ toString page ++ " is already in memory. (HIT)"

/-- Narration for a compulsory fault. -/
def loadText (page : Int) (emptyIndex : Nat) : String :=
  "Page " ++ toString page ++ " caused a FAULT. Loaded into empty Frame " ++
    toString emptyIndex ++ "."

/-- Narration for a replacement fault (victim and frame index are passed
as strings so the unreachable `undefined` branches can be mirrored). -/
def evictText (page : Int) (victim policyName idx : String) : String :=
  "Page " ++ toString page ++ " caused a FAULT. Page " ++ victim ++ " (" ++
    policyName ++ ") was evicted from Frame " ++ idx ++ "."

/-- One step of `runFIFO` (the body of its `forEach`): takes the referenced
page, the step index and the working state, and returns the snapshot pushed
onto the history together with the updated working state. -/
def fifoStepF (page : Int) (step : Nat) (m : MachineState) :
    StepSnapshot × MachineState :=
  let stats1 : Stats := { m.stats with total := m.stats.total + 1 }
  if m.frames.contains (some page) then
    let stats : Stats := { stats1 with hits := stats1.hits + 1 }
    (⟨step, page, m.frames, true, none, m.helper,
      msgHead step page ++ hitText page, stats⟩,
     ⟨m.frames, m.helper, stats⟩)
  else
    let stats : Stats := { stats1 with faults := stats1.faults + 1 }
    if m.frames.contains none then
      let emptyIndex := m.frames.indexOf none
      let frames := m.frames.set emptyIndex (some page)
      let q := m.helper ++ [page]
      (⟨step, page, frames, false, none, q,
        msgHead step page ++ loadText page emptyIndex, stats⟩,
       ⟨frames, q, stats⟩)
    else
      match m.helper with
      | [] =>
        -- In the source, `shift()` on an empty queue yields `undefined`,
        -- `frames.indexOf(undefined)` is `-1`, and `frames[-1] = page`
        -- changes no frame slot.  Unreachable from `runFIFO`, where the
        -- queue always holds exactly the resident pages.
        (⟨step, page, m.frames, false, none, [page],
          msgHead step page ++ evictText page ("undefined") ("FIFO") ("-1"), stats⟩,
         ⟨m.frames, [page], stats⟩)
      | v :: qrest =>
        let evictIndex := m.frames.indexOf (some v)
        let frames := m.frames.set evictIndex (some page)
        let q := qrest ++ [page]
        (⟨step, page, frames, false, some v, q,
          msgHead step page ++
            evictText page (toString v) "FIFO" (toString evictIndex), stats⟩,
         ⟨frames, q, stats⟩)

/-- One step of `runLRU` (the body of its `forEach`). -/
def lruStepF (page : Int) (step : Nat) (m : MachineState) :
    StepSnapshot × MachineState :=
  let stats1 : Stats := { m.stats with total := m.stats.total + 1 }
  if m.frames.contains (some page) then
    let stats : Stats := { stats1 with hits := stats1.hits + 1 }
    -- `splice(indexOf(page), 1)` removes the first occurrence when the page
    -- is present; with `indexOf = -1` (absent) it removes the last element.
    -- The absent case is unreachable from `runLRU`.
    let removed := if m.helper.contains page then m.helper.erase page
                   else m.helper.dropLast
    let st := page :: removed
    (⟨step, page, m.frames, true, none, st,
      msgHead step page ++ hitText page, stats⟩,
     ⟨m.frames, st, stats⟩)
  else
    let stats : Stats := { stats1 with faults := stats1.faults + 1 }
    if m.frames.contains none then
      let emptyIndex := m.frames.indexOf none
      let frames := m.frames.set emptyIndex (some page)
      let st := page :: m.helper
      (⟨step, page, frames, false, none, st,
        msgHead step page ++ loadText page emptyIndex, stats⟩,
       ⟨frames, st, stats⟩)
    else
      match m.helper.getLast? with
      | none =>
        -- `pop()` on an empty stack yields `undefined`; as in the FIFO
        -- case no frame slot changes.  Unreachable from `runLRU`.
        (⟨step, page, m.frames, false, none, [page],
          msgHead step page ++ evictText page ("undefined") ("LRU") ("-1"), stats⟩,
         ⟨m.frames, [page], stats⟩)
      | some v =>
        let st0 := m.helper.dropLast
        let evictIndex := m.frames.indexOf (some v)
        let frames := m.frames.set evictIndex (some page)
        let st := page :: st0
        (⟨step, page, frames, false, some v, st,
          msgHead step page ++
            evictText page (toString v) "LRU" (toString evictIndex), stats⟩,
         ⟨frames, st, stats⟩)

/-- First-occurrence deduplication: repeated assignments to the same key of
the `futureUses` object collapse onto the position of the first one. -/
def jsDedup (l : List Int) : List Int :=
  l.foldl (fun acc p => if p ∈ acc then acc else acc ++ [p]) []

/-- Keys that are array indices (canonical numeric strings in
`[0, 2^32 - 1)`) are enumerated by `Object.keys` first, in ascending
numeric order; all other keys follow in insertion order. -/
def isArrayIndexKey (p : Int) : Bool :=
  decide (0 ≤ p) && decide (p < 4294967295)

/-- The enumeration order of `Object.keys(futureUses)` for integer keys. -/
def jsIntKeys (l : List Int) : List Int :=
  let d := jsDedup l
  (d.filter isArrayIndexKey).insertionSort (· ≤ ·) ++
    d.filter (fun p => ! isArrayIndexKey p)

/-- Distance to the next use of `p` as computed at step `step`:
`pages.slice(step + 1).indexOf(p)`, with `none` standing in for the
source's `Infinity` when the page never occurs again. -/
def nextUse (pages : List Int) (step : Nat) (p : Int) : Option Nat :=
  let rest := pages.drop (step + 1)
  if p ∈ rest then some (rest.indexOf p) else none

/-- The comparison `futureUses[a] > futureUses[b]` with `none` as
`Infinity` (`Infinity > Infinity` is false in JavaScript). -/
def futGT : Option Nat → Option Nat → Bool
  | none, none => false
  | none, some _ => true
  | some _, none => false
  | some a, some b => decide (b < a)

/-- One step of `runOptimal` (the body of its `forEach`); it closes over
the full reference string because the eviction scan does. -/
def optStepF (pages : List Int) (page : Int) (step : Nat) (m : MachineState) :
    StepSnapshot × MachineState :=
  let stats1 : Stats := { m.stats with total := m.stats.total + 1 }
  let future := pages.drop (step + 1)
  if m.frames.contains (some page) then
    let stats : Stats := { stats1 with hits := stats1.hits + 1 }
    (⟨step, page, m.frames, true, none, future,
      msgHead step page ++ hitText page, stats⟩,
     ⟨m.frames, future, stats⟩)
  else
    let stats : Stats := { stats1 with faults := stats1.faults + 1 }
    if m.frames.contains none then
      let emptyIndex := m.frames.indexOf none
      let frames := m.frames.set emptyIndex (some page)
      (⟨step, page, frames, false, none, future,
        msgHead step page ++ loadText page emptyIndex, stats⟩,
       ⟨frames, future, stats⟩)
    else
      match jsIntKeys (m.frames.filterMap id) with
      | [] =>
        -- `reduce` over an empty key set throws a TypeError in the source;
        -- only possible with zero frames, unreachable for frameCount ≥ 1.
        (⟨step, page, m.frames, false, none, future, msgHead step page, stats⟩,
         ⟨m.frames, future, stats⟩)
      | k :: ks =>
        let v := ks.foldl (fun a b =>
          if futGT (nextUse pages step a) (nextUse pages step b) then a else b) k
        let evictIndex := m.frames.indexOf (some v)
        let frames := m.frames.set evictIndex (some page)
        (⟨step, page, frames, false, some v, future,
          msgHead step page ++
            evictText page (toString v) "Optimal" (toString evictIndex), stats⟩,
         ⟨frames, future, stats⟩)

/-- The shared `forEach` loop of the three `run*` functions. -/
def runGo (f : Int → Nat → MachineState → StepSnapshot × MachineState) :
    List Int → Nat → MachineState → List StepSnapshot
  | [], _, _ => []
  | p :: rest, n, m => (f p n m).1 :: runGo f rest (n + 1) (f p n m).2

/-- The initial working state: `frames` filled with `null`, an empty
helper structure, and zeroed statistics. -/
def initMachine (frameCount : Nat) : MachineState :=
  ⟨List.replicate frameCount none, [], ⟨0, 0, 0⟩⟩

/-- Embeds `SimulationLogic.runFIFO`. -/
def runFIFO (pages : List Int) (frameCount : Nat) : List StepSnapshot :=
  runGo fifoStepF pages 0 (initMachine frameCount)

/-- Embeds `SimulationLogic.runLRU`. -/
def runLRU (pages : List Int) (frameCount : Nat) : List StepSnapshot :=
  runGo lruStepF pages 0 (initMachine frameCount)

/-- Embeds `SimulationLogic.runOptimal`. -/
def runOptimal (pages : List Int) (frameCount : Nat) : List StepSnapshot :=
  runGo (optStepF pages) pages 0 (initMachine frameCount)

/-- Embeds `SimulationLogic.run`: dispatch on the algorithm tag, throwing
`Unknown algorithm selected.` on anything but the three recognized tags. -/
def run (pages : List Int) (frameCount : Nat) (algorithm : String) :
    Except String (List StepSnapshot) :=
  match algorithm with
  | "FIFO" => Except.ok (runFIFO pages frameCount)
  | "LRU" => Except.ok (runLRU pages frameCount)
  | "OPTIMAL" => Except.ok (runOptimal pages frameCount)
  | _ => Except.error ("Unknown algorithm selected.")

/-- A throwaway snapshot used as the default of `List.getD`; claims only
ever read `snapAt hist i` for `i < hist.length`. -/
def dfltSnap : StepSnapshot :=
  ⟨0, 0, [], false, none, [], "", ⟨0, 0, 0⟩⟩

/-- The snapshot at index `i` of a history. -/
def snapAt (hist : List StepSnapshot) (i : Nat) : StepSnapshot :=
  hist.getD i dfltSnap

/-- The working state out of which step `i` was computed: the initial
state for `i = 0`, otherwise the state recorded in snapshot `i - 1`. -/
def prevMachine (frameCount : Nat) (hist : List StepSnapshot) :
    Nat → MachineState
  | 0 => initMachine frameCount
  | j + 1 => ⟨(snapAt hist j).frames, (snapAt hist j).helperQueue,
              (snapAt hist j).stats⟩

/-- The working state recorded inside a snapshot. -/
def machOf (s : StepSnapshot) : MachineState :=
  ⟨s.frames, s.helperQueue, s.stats⟩

/-- The playback-relevant part of the `Animator`: the cursor into the
history, the `lastLoggedIndex` watermark (initially `-1`), and the
execution log (the sequence of appended narration strings). -/
structure AnimatorState where
  currentIndex : Nat
  lastLoggedIndex : Int
  log : List String
deriving Repr, DecidableEq

/-- Embeds `Animator.drawCurrentState(suppressLog)`: out-of-range cursors render
nothing; otherwise the snapshot is rendered and, unless suppressed, its
narration is appended exactly when the cursor exceeds the watermark. -/
def drawCurrentState (hist : List StepSnapshot) (suppressLog : Bool)
    (a : AnimatorState) : AnimatorState :=
  if a.currentIndex < hist.length then
    if suppressLog = false ∧ a.lastLoggedIndex < (a.currentIndex : Int) then
      { a with log := a.log ++ [(snapAt hist a.currentIndex).message],
               lastLoggedIndex := (a.currentIndex : Int) }
    else a
  else a

/-- Embeds `Animator.stepForward`: guarded by `currentIndex >= length - 1`;
advances the cursor and renders with logging enabled. -/
def animStepForward (hist : List StepSnapshot) (a : AnimatorState) :
    AnimatorState :=
  if hist.length - 1 ≤ a.currentIndex then a
  else drawCurrentState hist false { a with currentIndex := a.currentIndex + 1 }

/-- Embeds `Animator.stepBackward`: guarded by `currentIndex <= 0`; moves the
cursor back and renders with logging suppressed. -/
def animStepBackward (hist : List StepSnapshot) (a : AnimatorState) :
    AnimatorState :=
  if a.currentIndex = 0 then a
  else drawCurrentState hist true { a with currentIndex := a.currentIndex - 1 }

/-- Iterated application, used to express repeated stepping. -/
def applyN {α : Type} (f : α → α) : Nat → α → α
  | 0, a => a
  | k + 1, a => applyN f k (f a)

/-! ### Generic list lemmas -/

theorem contains_iff_mem {α : Type} [BEq α] [LawfulBEq α] {l : List α}
    {a : α} : l.contains a = true ↔ a ∈ l :=
  List.elem_iff

theorem contains_false_iff {α : Type} [BEq α] [LawfulBEq α] {l : List α}
    {a : α} : l.contains a = false ↔ a ∉ l := by
  rw [Bool.eq_false_iff]
  exact not_congr contains_iff_mem

theorem indexOf_cons_self_beq {α : Type} [BEq α] [LawfulBEq α] (a : α)
    (l : List α) : (a :: l).indexOf a = 0 := by
  simp [List.indexOf, List.findIdx_cons]

theorem indexOf_cons_ne_beq {α : Type} [BEq α] [LawfulBEq α] {a b : α}
    (l : List α) (h : b ≠ a) : (b :: l).indexOf a = l.indexOf a + 1 := by
  have hb : (b == a) = false := beq_eq_false_iff_ne.mpr h
  simp [List.indexOf, List.findIdx_cons, hb]

theorem indexOf_split {α : Type} [BEq α] [LawfulBEq α] {l : List α} {a : α}
    (h : a ∈ l) :
    ∃ l₁ l₂, l = l₁ ++ a :: l₂ ∧ a ∉ l₁ ∧ l.indexOf a = l₁.length := by
  induction l with
  | nil => cases h
  | cons b t ih =>
    by_cases hb : b = a
    · subst hb
      exact ⟨[], t, rfl, by simp, indexOf_cons_self_beq b t⟩
    · have ht : a ∈ t := by
        cases List.mem_cons.mp h with
        | inl h1 => exact absurd h1.symm hb
        | inr h2 => exact h2
      obtain ⟨l₁, l₂, hl, hna, hidx⟩ := ih ht
      refine ⟨b :: l₁, l₂, by simp [hl], ?_, ?_⟩
      · simp only [List.mem_cons, not_or]
        exact ⟨fun hc => hb hc.symm, hna⟩
      · rw [indexOf_cons_ne_beq t hb, hidx]
        rfl

theorem set_length_append {α : Type} (l₁ l₂ : List α) (a b : α) :
    (l₁ ++ a :: l₂).set l₁.length b = l₁ ++ b :: l₂ := by
  induction l₁ with
  | nil => rfl
  | cons c t ih => simp [List.set, ih]

/-! ### The shared loop: relating consecutive snapshots -/

/-- A step function is faithful to `createState`: the snapshot it emits
records the referenced page, the step index, and exactly the updated
working state. -/
def reflects (f : Int → Nat → MachineState → StepSnapshot × MachineState) :
    Prop :=
  ∀ p n m, (f p n m).1.page = p ∧ (f p n m).1.step = n ∧
    (f p n m).1.frames = (f p n m).2.frames ∧
    (f p n m).1.helperQueue = (f p n m).2.helper ∧
    (f p n m).1.stats = (f p n m).2.stats

theorem machOf_eq_of_reflects {f} (hf : reflects f) (p : Int) (n : Nat)
    (m : MachineState) : machOf (f p n m).1 = (f p n m).2 := by
  obtain ⟨_, _, h3, h4, h5⟩ := hf p n m
  show (⟨(f p n m).1.frames, (f p n m).1.helperQueue, (f p n m).1.stats⟩ :
    MachineState) = (f p n m).2
  rw [h3, h4, h5]

theorem runGo_length (f) : ∀ (pages : List Int) (n : Nat) (m : MachineState),
    (runGo f pages n m).length = pages.length
  | [], _, _ => rfl
  | _ :: rest, n, m => by
    simp [runGo, runGo_length f rest (n + 1)]

theorem snapAt_cons_zero (s : StepSnapshot) (t : List StepSnapshot) :
    snapAt (s :: t) 0 = s := rfl

theorem snapAt_cons_succ (s : StepSnapshot) (t : List StepSnapshot) (i : Nat) :
    snapAt (s :: t) (i + 1) = snapAt t i := rfl

theorem runGo_cons (f) (p : Int) (rest : List Int) (n : Nat)
    (m : MachineState) :
    runGo f (p :: rest) n m =
      (f p n m).1 :: runGo f rest (n + 1) (f p n m).2 := rfl

theorem runGo_snap_zero (f) :
    ∀ (pages : List Int) (n : Nat) (m : MachineState), 0 < pages.length →
      snapAt (runGo f pages n m) 0 = (f (pages.getD 0 0) n m).1 := by
  intro pages n m h
  match pages with
  | p :: rest => rw [runGo_cons, snapAt_cons_zero]; rfl

theorem runGo_snap_succ (f) (hf : reflects f) :
    ∀ (pages : List Int) (n : Nat) (m : MachineState) (j : Nat),
      j + 1 < pages.length →
      snapAt (runGo f pages n m) (j + 1) =
        (f (pages.getD (j + 1) 0) (n + (j + 1))
          (machOf (snapAt (runGo f pages n m) j))).1 := by
  intro pages
  induction pages with
  | nil => intro n m j hj; cases hj
  | cons p rest ih =>
    intro n m j hj
    have hj' : j < rest.length := Nat.lt_of_succ_lt_succ hj
    rw [runGo_cons, snapAt_cons_succ]
    match j with
    | 0 =>
      rw [runGo_snap_zero f rest (n + 1) (f p n m).2 hj',
        snapAt_cons_zero, machOf_eq_of_reflects hf]
      rfl
    | j' + 1 =>
      rw [ih (n + 1) (f p n m).2 j' hj', snapAt_cons_succ]
      have harith : n + 1 + (j' + 1) = n + (j' + 1 + 1) := by omega
      rw [harith]
      rfl

theorem runGo_step_eq (f) (hf : reflects f) :
    ∀ (pages : List Int) (n : Nat) (m : MachineState) (i : Nat),
      i < pages.length → (snapAt (runGo f pages n m) i).step = n + i := by
  intro pages
  induction pages with
  | nil => intro n m i hi; cases hi
  | cons p rest ih =>
    intro n m i hi
    match i with
    | 0 =>
      rw [runGo_cons, snapAt_cons_zero, (hf p n m).2.1]
      omega
    | j + 1 =>
      rw [runGo_cons, snapAt_cons_succ,
        ih (n + 1) (f p n m).2 j (Nat.lt_of_succ_lt_succ hi)]
      omega

theorem runGo_page_eq (f) (hf : reflects f) :
    ∀ (pages : List Int) (n : Nat) (m : MachineState) (i : Nat),
      i < pages.length →
      (snapAt (runGo f pages n m) i).page = pages.getD i 0 := by
  intro pages
  induction pages with
  | nil => intro n m i hi; cases hi
  | cons p rest ih =>
    intro n m i hi
    match i with
    | 0 =>
      rw [runGo_cons, snapAt_cons_zero, (hf p n m).1]
      rfl
    | j + 1 =>
      rw [runGo_cons, snapAt_cons_succ,
        ih (n + 1) (f p n m).2 j (Nat.lt_of_succ_lt_succ hi)]
      rfl

/-- The central bridge: snapshot `i` of a run is the snapshot the step
function emits out of the working state reconstructed from snapshot
`i - 1` (or the initial state for `i = 0`). -/
theorem run_snap_eq (f) (hf : reflects f) (pages : List Int) (fc : Nat)
    (i : Nat) (hi : i < pages.length) :
    snapAt (runGo f pages 0 (initMachine fc)) i =
      (f (pages.getD i 0) i
        (prevMachine fc (runGo f pages 0 (initMachine fc)) i)).1 := by
  match i with
  | 0 =>
    rw [runGo_snap_zero f pages 0 (initMachine fc) hi]
    rfl
  | j + 1 =>
    have h := runGo_snap_succ f hf pages 0 (initMachine fc) j hi
    rw [h]
    have harith : 0 + (j + 1) = j + 1 := by omega
    rw [harith]
    rfl

theorem runGo_invariant (f) (hf : reflects f)
    (Inv : Nat → MachineState → Prop)
    (hstep : ∀ p n m, Inv n m → Inv (n + 1) (f p n m).2) :
    ∀ (pages : List Int) (n : Nat) (m : MachineState), Inv n m →
      ∀ i, i < pages.length →
        Inv (n + i + 1) (machOf (snapAt (runGo f pages n m) i)) := by
  intro pages
  induction pages with
  | nil => intro n m _ i hi; cases hi
  | cons p rest ih =>
    intro n m hm i hi
    match i with
    | 0 =>
      rw [runGo_cons, snapAt_cons_zero, machOf_eq_of_reflects hf]
      exact hstep p n m hm
    | j + 1 =>
      rw [runGo_cons, snapAt_cons_succ]
      have h := ih (n + 1) (f p n m).2 (hstep p n m hm) j
        (Nat.lt_of_succ_lt_succ hi)
      have harith : n + 1 + j + 1 = n + (j + 1) + 1 := by omega
      rw [harith] at h
      exact h

/-- The working state feeding step `i` satisfies any invariant preserved
by the step function and true of the initial state. -/
theorem prevMachine_invariant (f) (hf : reflects f)
    (Inv : Nat → MachineState → Prop)
    (hstep : ∀ p n m, Inv n m → Inv (n + 1) (f p n m).2)
    (pages : List Int) (fc : Nat) (h0 : Inv 0 (initMachine fc))
    (i : Nat) (hi : i < pages.length) :
    Inv i (prevMachine fc (runGo f pages 0 (initMachine fc)) i) := by
  match i with
  | 0 => exact h0
  | j + 1 =>
    have h := runGo_invariant f hf Inv hstep pages 0 (initMachine fc) h0 j
      (Nat.lt_of_succ_lt hi)
    have harith : 0 + j + 1 = j + 1 := by omega
    rw [harith] at h
    exact h

/-! ### Step-function case analysis: FIFO -/

theorem fifoStepF_reflects : reflects fifoStepF := by
  intro p n m
  simp only [fifoStepF]
  split
  · exact ⟨rfl, rfl, rfl, rfl, rfl⟩
  · split
    · exact ⟨rfl, rfl, rfl, rfl, rfl⟩
    · split <;> exact ⟨rfl, rfl, rfl, rfl, rfl⟩

theorem fifoStepF_isHit (p : Int) (n : Nat) (m : MachineState) :
    (fifoStepF p n m).1.isHit = m.frames.contains (some p) := by
  simp only [fifoStepF]
  split
  · rename_i h; exact h.symm
  · rename_i h
    rw [Bool.not_eq_true] at h
    rw [h]
    split
    · rfl
    · split <;> rfl

theorem fifoStepF_stats (p : Int) (n : Nat) (m : MachineState) :
    (fifoStepF p n m).2.stats =
        ⟨m.stats.hits + 1, m.stats.faults, m.stats.total + 1⟩ ∨
    (fifoStepF p n m).2.stats =
        ⟨m.stats.hits, m.stats.faults + 1, m.stats.total + 1⟩ := by
  simp only [fifoStepF]
  split
  · exact Or.inl rfl
  · split
    · exact Or.inr rfl
    · split <;> exact Or.inr rfl

theorem fifoStepF_hit (p : Int) (n : Nat) (m : MachineState)
    (h : m.frames.contains (some p) = true) :
    (fifoStepF p n m).2.frames = m.frames ∧
    (fifoStepF p n m).2.helper = m.helper ∧
    (fifoStepF p n m).1.pageToEvict = none := by
  simp only [fifoStepF, h]
  exact ⟨rfl, rfl, rfl⟩

theorem fifoStepF_load (p : Int) (n : Nat) (m : MachineState)
    (h1 : m.frames.contains (some p) = false)
    (h2 : m.frames.contains none = true) :
    (fifoStepF p n m).2.frames =
      m.frames.set (m.frames.indexOf none) (some p) ∧
    (fifoStepF p n m).2.helper = m.helper ++ [p] ∧
    (fifoStepF p n m).1.pageToEvict = none := by
  simp only [fifoStepF, h1, h2]
  exact ⟨rfl, rfl, rfl⟩

theorem fifoStepF_evict (p : Int) (n : Nat) (m : MachineState) (v : Int)
    (qrest : List Int) (h1 : m.frames.contains (some p) = false)
    (h2 : m.frames.contains none = false) (hq : m.helper = v :: qrest) :
    (fifoStepF p n m).2.frames =
      m.frames.set (m.frames.indexOf (some v)) (some p) ∧
    (fifoStepF p n m).2.helper = qrest ++ [p] ∧
    (fifoStepF p n m).1.pageToEvict = some v := by
  simp only [fifoStepF, h1, h2, hq]
  exact ⟨rfl, rfl, rfl⟩

/-! ### Step-function case analysis: LRU -/

theorem lruStepF_reflects : reflects lruStepF := by
  intro p n m
  simp only [lruStepF]
  split
  · exact ⟨rfl, rfl, rfl, rfl, rfl⟩
  · split
    · exact ⟨rfl, rfl, rfl, rfl, rfl⟩
    · split <;> exact ⟨rfl, rfl, rfl, rfl, rfl⟩

theorem lruStepF_isHit (p : Int) (n : Nat) (m : MachineState) :
    (lruStepF p n m).1.isHit = m.frames.contains (some p) := by
  simp only [lruStepF]
  split
  · rename_i h; exact h.symm
  · rename_i h
    rw [Bool.not_eq_true] at h
    rw [h]
    split
    · rfl
    · split <;> rfl

theorem lruStepF_stats (p : Int) (n : Nat) (m : MachineState) :
    (lruStepF p n m).2.stats =
        ⟨m.stats.hits + 1, m.stats.faults, m.stats.total + 1⟩ ∨
    (lruStepF p n m).2.stats =
        ⟨m.stats.hits, m.stats.faults + 1, m.stats.total + 1⟩ := by
  simp only [lruStepF]
  split
  · exact Or.inl rfl
  · split
    · exact Or.inr rfl
    · split <;> exact Or.inr rfl

theorem lruStepF_hit (p : Int) (n : Nat) (m : MachineState)
    (h : m.frames.contains (some p) = true)
    (h3 : m.helper.contains p = true) :
    (lruStepF p n m).2.frames = m.frames ∧
    (lruStepF p n m).2.helper = p :: m.helper.erase p ∧
    (lruStepF p n m).1.pageToEvict = none := by
  simp only [lruStepF, h, h3]
  exact ⟨rfl, rfl, rfl⟩

theorem lruStepF_load (p : Int) (n : Nat) (m : MachineState)
    (h1 : m.frames.contains (some p) = false)
    (h2 : m.frames.contains none = true) :
    (lruStepF p n m).2.frames =
      m.frames.set (m.frames.indexOf none) (some p) ∧
    (lruStepF p n m).2.helper = p :: m.helper ∧
    (lruStepF p n m).1.pageToEvict = none := by
  simp only [lruStepF, h1, h2]
  exact ⟨rfl, rfl, rfl⟩

theorem lruStepF_evict (p : Int) (n : Nat) (m : MachineState) (v : Int)
    (h1 : m.frames.contains (some p) = false)
    (h2 : m.frames.contains none = false)
    (hq : m.helper.getLast? = some v) :
    (lruStepF p n m).2.frames =
      m.frames.set (m.frames.indexOf (some v)) (some p) ∧
    (lruStepF p n m).2.helper = p :: m.helper.dropLast ∧
    (lruStepF p n m).1.pageToEvict = some v := by
  simp only [lruStepF, h1, h2, hq]
  exact ⟨rfl, rfl, rfl⟩

/-! ### Step-function case analysis: Optimal -/

theorem optStepF_reflects (pages : List Int) : reflects (optStepF pages) := by
  intro p n m
  simp only [optStepF]
  split
  · exact ⟨rfl, rfl, rfl, rfl, rfl⟩
  · split
    · exact ⟨rfl, rfl, rfl, rfl, rfl⟩
    · split <;> exact ⟨rfl, rfl, rfl, rfl, rfl⟩

theorem optStepF_isHit (pages : List Int) (p : Int) (n : Nat)
    (m : MachineState) :
    (optStepF pages p n m).1.isHit = m.frames.contains (some p) := by
  simp only [optStepF]
  split
  · rename_i h; exact h.symm
  · rename_i h
    rw [Bool.not_eq_true] at h
    rw [h]
    split
    · rfl
    · split <;> rfl

theorem optStepF_stats (pages : List Int) (p : Int) (n : Nat)
    (m : MachineState) :
    (optStepF pages p n m).2.stats =
        ⟨m.stats.hits + 1, m.stats.faults, m.stats.total + 1⟩ ∨
    (optStepF pages p n m).2.stats =
        ⟨m.stats.hits, m.stats.faults + 1, m.stats.total + 1⟩ := by
  simp only [optStepF]
  split
  · exact Or.inl rfl
  · split
    · exact Or.inr rfl
    · split <;> exact Or.inr rfl

theorem optStepF_hit (pages : List Int) (p : Int) (n : Nat) (m : MachineState)
    (h : m.frames.contains (some p) = true) :
    (optStepF pages p n m).2.frames = m.frames ∧
    (optStepF pages p n m).1.pageToEvict = none := by
  simp only [optStepF, h]
  exact ⟨rfl, rfl⟩

theorem optStepF_load (pages : List Int) (p : Int) (n : Nat) (m : MachineState)
    (h1 : m.frames.contains (some p) = false)
    (h2 : m.frames.contains none = true) :
    (optStepF pages p n m).2.frames =
      m.frames.set (m.frames.indexOf none) (some p) ∧
    (optStepF pages p n m).1.pageToEvict = none := by
  simp only [optStepF, h1, h2]
  exact ⟨rfl, rfl⟩

theorem optStepF_evict (pages : List Int) (p : Int) (n : Nat)
    (m : MachineState) (k : Int) (ks : List Int)
    (h1 : m.frames.contains (some p) = false)
    (h2 : m.frames.contains none = false)
    (hk : jsIntKeys (m.frames.filterMap id) = k :: ks) :
    (optStepF pages p n m).1.pageToEvict =
      some (ks.foldl (fun a b =>
        if futGT (nextUse pages n a) (nextUse pages n b) then a else b) k) ∧
    (optStepF pages p n m).2.frames =
      m.frames.set (m.frames.indexOf (some (ks.foldl (fun a b =>
        if futGT (nextUse pages n a) (nextUse pages n b) then a else b) k)))
        (some p) := by
  simp only [optStepF, h1, h2, hk]
  exact ⟨rfl, rfl⟩

/-! ### The reduce over futureUses: an argmax -/

theorem futGT_irrefl (a : Option Nat) : futGT a a = false := by
  cases a <;> simp [futGT]

theorem futGT_asymm {a b : Option Nat} (h : futGT a b = true) :
    futGT b a = false := by
  cases a <;> cases b <;> simp_all [futGT] <;> omega

theorem futGT_false_trans {a b c : Option Nat} (hab : futGT a b = false)
    (hbc : futGT b c = false) : futGT a c = false := by
  cases a <;> cases b <;> cases c <;> simp_all [futGT] <;> omega

theorem foldl_pick_mem (g : Int → Option Nat) :
    ∀ (ks : List Int) (k : Int),
      ks.foldl (fun a b => if futGT (g a) (g b) then a else b) k = k ∨
      ks.foldl (fun a b => if futGT (g a) (g b) then a else b) k ∈ ks := by
  intro ks
  induction ks with
  | nil => intro k; exact Or.inl rfl
  | cons b t ih =>
    intro k
    simp only [List.foldl_cons]
    rcases ih (if futGT (g k) (g b) then k else b) with h | h
    · rw [h]
      split
      · exact Or.inl rfl
      · exact Or.inr (List.mem_cons_self _ _)
    · exact Or.inr (List.mem_cons_of_mem _ h)

theorem foldl_pick_max (g : Int → Option Nat) :
    ∀ (ks : List Int) (k : Int) (x : Int), x = k ∨ x ∈ ks →
      futGT (g x)
        (g (ks.foldl (fun a b => if futGT (g a) (g b) then a else b) k)) =
        false := by
  intro ks
  induction ks with
  | nil =>
    intro k x hx
    rcases hx with h | h
    · subst h; exact futGT_irrefl _
    · cases h
  | cons b t ih =>
    intro k x hx
    simp only [List.foldl_cons]
    have hk : futGT (g k) (g (if futGT (g k) (g b) then k else b)) = false := by
      split
      · exact futGT_irrefl _
      · rename_i hgt
        rw [Bool.not_eq_true] at hgt
        exact hgt
    have hb : futGT (g b) (g (if futGT (g k) (g b) then k else b)) = false := by
      split
      · rename_i hgt
        exact futGT_asymm hgt
      · exact futGT_irrefl _
    have hrec : futGT (g (if futGT (g k) (g b) then k else b))
        (g (t.foldl (fun a c => if futGT (g a) (g c) then a else c)
          (if futGT (g k) (g b) then k else b))) = false :=
      ih _ _ (Or.inl rfl)
    rcases hx with h | h
    · subst h
      exact futGT_false_trans hk hrec
    · rcases List.mem_cons.mp h with h1 | h2
      · subst h1
        exact futGT_false_trans hb hrec
      · exact ih _ _ (Or.inr h2)

/-! ### Membership in the key enumeration -/

theorem mem_jsDedup_aux :
    ∀ (l acc : List Int) (p : Int),
      p ∈ l.foldl (fun a q => if q ∈ a then a else a ++ [q]) acc ↔
        p ∈ acc ∨ p ∈ l := by
  intro l
  induction l with
  | nil => intro acc p; simp
  | cons q t ih =>
    intro acc p
    simp only [List.foldl_cons]
    rw [ih]
    by_cases hq : q ∈ acc
    · simp only [if_pos hq, List.mem_cons]
      constructor
      · rintro (h | h)
        · exact Or.inl h
        · exact Or.inr (Or.inr h)
      · rintro (h | h | h)
        · exact Or.inl h
        · rw [h]; exact Or.inl hq
        · exact Or.inr h
    · simp only [if_neg hq, List.mem_append, List.mem_singleton,
        List.mem_cons]
      tauto

theorem mem_jsDedup (l : List Int) (p : Int) : p ∈ jsDedup l ↔ p ∈ l := by
  unfold jsDedup
  rw [mem_jsDedup_aux]
  simp

theorem mem_jsIntKeys (l : List Int) (p : Int) : p ∈ jsIntKeys l ↔ p ∈ l := by
  unfold jsIntKeys
  simp only [List.mem_append, List.mem_insertionSort, List.mem_filter]
  constructor
  · rintro (⟨h, _⟩ | ⟨h, _⟩) <;> exact (mem_jsDedup l p).mp h
  · intro h
    by_cases hk : isArrayIndexKey p = true
    · exact Or.inl ⟨(mem_jsDedup l p).mpr h, hk⟩
    · refine Or.inr ⟨(mem_jsDedup l p).mpr h, ?_⟩
      rw [Bool.not_eq_true] at hk
      simp [hk]

theorem jsIntKeys_ne_nil {l : List Int} {w : Int} (hw : w ∈ l) :
    jsIntKeys l ≠ [] := by
  intro hnil
  have := (mem_jsIntKeys l w).mpr hw
  rw [hnil] at this
  cases this

/-! ### Frame-array updates -/

theorem mem_filterMap_id {l : List (Option Int)} {v : Int} :
    v ∈ l.filterMap id ↔ some v ∈ l := by
  simp [List.mem_filterMap]

theorem get?_length_append {α : Type} (l₁ l₂ : List α) (a : α) :
    (l₁ ++ a :: l₂).get? l₁.length = some a := by
  induction l₁ with
  | nil => rfl
  | cons c t ih => simpa using ih

theorem filterMap_id_middle_some (l₁ l₂ : List (Option Int)) (v : Int) :
    (l₁ ++ some v :: l₂).filterMap id =
      l₁.filterMap id ++ v :: l₂.filterMap id := by
  simp [List.filterMap_append]

theorem filterMap_id_middle_none (l₁ l₂ : List (Option Int)) :
    (l₁ ++ none :: l₂).filterMap id =
      l₁.filterMap id ++ l₂.filterMap id := by
  simp [List.filterMap_append]

theorem filterMap_id_replicate_none (n : Nat) :
    (List.replicate n (none : Option Int)).filterMap id = [] := by
  induction n with
  | zero => rfl
  | succ k ih => simpa [List.replicate] using ih

/-- Decomposition of a replacement fault: setting the slot found by
`indexOf (some v)` to `some p` replaces the unique occurrence of the
victim in place, keeping every other slot. -/
theorem frames_replace_spec (frames : List (Option Int)) (v p : Int)
    (hnd : (frames.filterMap id).Nodup) (hv : some v ∈ frames)
    (hp : some p ∉ frames) :
    ∃ l₁ l₂, frames = l₁ ++ some v :: l₂ ∧
      frames.indexOf (some v) = l₁.length ∧
      frames.set (frames.indexOf (some v)) (some p) = l₁ ++ some p :: l₂ ∧
      ((l₁ ++ some p :: l₂).filterMap id).Nodup ∧
      (l₁ ++ some p :: l₂).length = frames.length ∧
      (∀ q : Int, some q ∈ l₁ ++ some p :: l₂ ↔
        q = p ∨ (some q ∈ frames ∧ q ≠ v)) := by
  obtain ⟨l₁, l₂, hdec, hnl₁, hidx⟩ := indexOf_split hv
  have hset : frames.set (frames.indexOf (some v)) (some p) =
      l₁ ++ some p :: l₂ := by
    rw [hidx, hdec, set_length_append]
  have hndmid : (v :: (l₁.filterMap id ++ l₂.filterMap id)).Nodup := by
    rw [hdec, filterMap_id_middle_some, List.nodup_middle] at hnd
    exact hnd
  obtain ⟨hvf, hndrest⟩ := List.nodup_cons.mp hndmid
  have hv₂ : some v ∉ l₂ := by
    intro hc
    exact hvf (List.mem_append.mpr (Or.inr (mem_filterMap_id.mpr hc)))
  have hp₁ : some p ∉ l₁ := by
    intro hc
    exact hp (by rw [hdec]; exact List.mem_append.mpr (Or.inl hc))
  have hp₂ : some p ∉ l₂ := by
    intro hc
    refine hp ?_
    rw [hdec]
    exact List.mem_append.mpr (Or.inr (List.mem_cons_of_mem _ hc))
  refine ⟨l₁, l₂, hdec, hidx, hset, ?_, ?_, ?_⟩
  · rw [filterMap_id_middle_some, List.nodup_middle]
    refine List.nodup_cons.mpr ⟨?_, hndrest⟩
    intro hc
    rcases List.mem_append.mp hc with h | h
    · exact hp₁ (mem_filterMap_id.mp h)
    · exact hp₂ (mem_filterMap_id.mp h)
  · rw [hdec]
    simp
  · intro q
    constructor
    · intro hq
      rcases List.mem_append.mp hq with h | h
      · have hqv : q ≠ v := by
          rintro rfl
          exact hnl₁ h
        exact Or.inr ⟨by rw [hdec]; exact List.mem_append.mpr (Or.inl h), hqv⟩
      · rcases List.mem_cons.mp h with h1 | h2
        · exact Or.inl (Option.some.injEq q p ▸ congrArg Option.some
            (Option.some.inj h1))
        · have hqv : q ≠ v := by
            rintro rfl
            exact hv₂ h2
          refine Or.inr ⟨?_, hqv⟩
          rw [hdec]
          exact List.mem_append.mpr (Or.inr (List.mem_cons_of_mem _ h2))
    · rintro (rfl | ⟨hmem, hqv⟩)
      · exact List.mem_append.mpr (Or.inr (List.mem_cons_self _ _))
      · rw [hdec] at hmem
        rcases List.mem_append.mp hmem with h | h
        · exact List.mem_append.mpr (Or.inl h)
        · rcases List.mem_cons.mp h with h1 | h2
          · exact absurd (Option.some.inj h1) hqv
          · exact List.mem_append.mpr (Or.inr (List.mem_cons_of_mem _ h2))

/-- Decomposition of a compulsory fault: setting the first empty slot to
`some p` keeps every other slot. -/
theorem frames_fill_spec (frames : List (Option Int)) (p : Int)
    (hnd : (frames.filterMap id).Nodup) (hno : (none : Option Int) ∈ frames)
    (hp : some p ∉ frames) :
    ∃ l₁ l₂, frames = l₁ ++ none :: l₂ ∧
      frames.indexOf none = l₁.length ∧
      frames.set (frames.indexOf none) (some p) = l₁ ++ some p :: l₂ ∧
      ((l₁ ++ some p :: l₂).filterMap id).Nodup ∧
      (l₁ ++ some p :: l₂).length = frames.length ∧
      (∀ q : Int, some q ∈ l₁ ++ some p :: l₂ ↔ q = p ∨ some q ∈ frames) := by
  obtain ⟨l₁, l₂, hdec, hnl₁, hidx⟩ := indexOf_split hno
  have hset : frames.set (frames.indexOf none) (some p) =
      l₁ ++ some p :: l₂ := by
    rw [hidx, hdec, set_length_append]
  have hndrest : (l₁.filterMap id ++ l₂.filterMap id).Nodup := by
    rw [hdec, filterMap_id_middle_none] at hnd
    exact hnd
  have hp₁ : some p ∉ l₁ := by
    intro hc
    exact hp (by rw [hdec]; exact List.mem_append.mpr (Or.inl hc))
  have hp₂ : some p ∉ l₂ := by
    intro hc
    refine hp ?_
    rw [hdec]
    exact List.mem_append.mpr (Or.inr (List.mem_cons_of_mem _ hc))
  refine ⟨l₁, l₂, hdec, hidx, hset, ?_, ?_, ?_⟩
  · rw [filterMap_id_middle_some, List.nodup_middle]
    refine List.nodup_cons.mpr ⟨?_, hndrest⟩
    intro hc
    rcases List.mem_append.mp hc with h | h
    · exact hp₁ (mem_filterMap_id.mp h)
    · exact hp₂ (mem_filterMap_id.mp h)
  · rw [hdec]
    simp
  · intro q
    constructor
    · intro hq
      rcases List.mem_append.mp hq with h | h
      · refine Or.inr ?_
        rw [hdec]
        exact List.mem_append.mpr (Or.inl h)
      · rcases List.mem_cons.mp h with h1 | h2
        · exact Or.inl (Option.some.inj h1)
        · refine Or.inr ?_
          rw [hdec]
          exact List.mem_append.mpr (Or.inr (List.mem_cons_of_mem _ h2))
    · rintro (rfl | hmem)
      · exact List.mem_append.mpr (Or.inr (List.mem_cons_self _ _))
      · rw [hdec] at hmem
        rcases List.mem_append.mp hmem with h | h
        · exact List.mem_append.mpr (Or.inl h)
        · rcases List.mem_cons.mp h with h1 | h2
          · cases h1
          · exact List.mem_append.mpr (Or.inr (List.mem_cons_of_mem _ h2))

/-! ### Run invariants -/

/-- Well-formedness of the frame array: configured length and no
duplicate non-empty entries. -/
def goodFrames (fc : Nat) (m : MachineState) : Prop :=
  m.frames.length = fc ∧ (m.frames.filterMap id).Nodup

/-- Well-formedness of the working state for FIFO and LRU: good frames
and a duplicate-free helper structure holding exactly the resident
pages. -/
def goodMachine (fc : Nat) (m : MachineState) : Prop :=
  goodFrames fc m ∧ m.helper.Nodup ∧
    ∀ q : Int, q ∈ m.helper ↔ some q ∈ m.frames

theorem initMachine_goodMachine (fc : Nat) :
    goodMachine fc (initMachine fc) := by
  refine ⟨⟨by simp [initMachine], ?_⟩, by simp [initMachine], ?_⟩
  · show ((List.replicate fc (none : Option Int)).filterMap id).Nodup
    rw [filterMap_id_replicate_none]
    exact List.nodup_nil
  · intro q
    simp [initMachine, List.mem_replicate]

theorem helper_ne_nil_of_full {fc : Nat} {m : MachineState} (hfc : 1 ≤ fc)
    (hm : goodMachine fc m) (hfull : m.frames.contains none = false) :
    m.helper ≠ [] := by
  obtain ⟨⟨hlen, _⟩, _, hiff⟩ := hm
  intro hnil
  have hnone : (none : Option Int) ∉ m.frames := contains_false_iff.mp hfull
  rcases hfm : m.frames with _ | ⟨o, t⟩
  · rw [hfm] at hlen
    simp at hlen
    omega
  · rcases o with _ | w
    · exact hnone (by rw [hfm]; exact List.mem_cons_self _ _)
    · have hw : w ∈ m.helper :=
        (hiff w).mpr (by rw [hfm]; exact List.mem_cons_self _ _)
      rw [hnil] at hw
      cases hw

theorem fifoStepF_preserves (fc : Nat) (hfc : 1 ≤ fc) (p : Int) (n : Nat)
    (m : MachineState) (hm : goodMachine fc m) :
    goodMachine fc (fifoStepF p n m).2 := by
  obtain ⟨⟨hlen, hnd⟩, hqnd, hiff⟩ := hm
  by_cases hhit : m.frames.contains (some p) = true
  · obtain ⟨hf, hh, _⟩ := fifoStepF_hit p n m hhit
    exact ⟨⟨by rw [hf]; exact hlen, by rw [hf]; exact hnd⟩,
      by rw [hh]; exact hqnd,
      fun q => by rw [hf, hh]; exact hiff q⟩
  · rw [Bool.not_eq_true] at hhit
    have hpnot : some p ∉ m.frames := contains_false_iff.mp hhit
    have hpq : p ∉ m.helper := fun hc => hpnot ((hiff p).mp hc)
    by_cases hnone : m.frames.contains none = true
    · obtain ⟨hf, hh, _⟩ := fifoStepF_load p n m hhit hnone
      obtain ⟨l₁, l₂, hdec, hidx, hset, hndnew, hlennew, hmemnew⟩ :=
        frames_fill_spec m.frames p hnd (contains_iff_mem.mp hnone) hpnot
      refine ⟨⟨?_, ?_⟩, ?_, ?_⟩
      · rw [hf, hset, hlennew]; exact hlen
      · rw [hf, hset]; exact hndnew
      · rw [hh, List.nodup_middle]
        refine List.nodup_cons.mpr ⟨?_, ?_⟩
        · simpa using hpq
        · simpa using hqnd
      · intro q
        rw [hf, hh, hset, hmemnew q]
        constructor
        · intro hq
          rcases List.mem_append.mp hq with h | h
          · exact Or.inr ((hiff q).mp h)
          · rcases List.mem_cons.mp h with h1 | h2
            · exact Or.inl h1
            · cases h2
        · rintro (rfl | hmem)
          · exact List.mem_append.mpr (Or.inr (List.mem_cons_self _ _))
          · exact List.mem_append.mpr (Or.inl ((hiff q).mpr hmem))
    · rw [Bool.not_eq_true] at hnone
      have hne : m.helper ≠ [] :=
        helper_ne_nil_of_full hfc ⟨⟨hlen, hnd⟩, hqnd, hiff⟩ hnone
      rcases hq : m.helper with _ | ⟨v, qrest⟩
      · exact absurd hq hne
      · obtain ⟨hf, hh, _⟩ := fifoStepF_evict p n m v qrest hhit hnone hq
        have hv : some v ∈ m.frames :=
          (hiff v).mp (by rw [hq]; exact List.mem_cons_self _ _)
        obtain ⟨l₁, l₂, hdec, hidx, hset, hndnew, hlennew, hmemnew⟩ :=
          frames_replace_spec m.frames v p hnd hv hpnot
        have hvq : v ∉ qrest := (List.nodup_cons.mp (hq ▸ hqnd)).1
        have hqrestnd : qrest.Nodup := (List.nodup_cons.mp (hq ▸ hqnd)).2
        have hpqrest : p ∉ qrest := fun hc =>
          hpq (by rw [hq]; exact List.mem_cons_of_mem _ hc)
        refine ⟨⟨?_, ?_⟩, ?_, ?_⟩
        · rw [hf, hset, hlennew]; exact hlen
        · rw [hf, hset]; exact hndnew
        · rw [hh, List.nodup_middle]
          refine List.nodup_cons.mpr ⟨?_, ?_⟩
          · simpa using hpqrest
          · simpa using hqrestnd
        · intro q
          rw [hf, hh, hset, hmemnew q]
          constructor
          · intro hmem
            rcases List.mem_append.mp hmem with h | h
            · have hqv : q ≠ v := fun hqv => hvq (hqv ▸ h)
              exact Or.inr ⟨(hiff q).mp
                (by rw [hq]; exact List.mem_cons_of_mem _ h), hqv⟩
            · rcases List.mem_cons.mp h with h1 | h2
              · exact Or.inl h1
              · cases h2
          · rintro (rfl | ⟨hmem, hqv⟩)
            · exact List.mem_append.mpr (Or.inr (List.mem_cons_self _ _))
            · have hq2 : q ∈ m.helper := (hiff q).mpr hmem
              rw [hq] at hq2
              rcases List.mem_cons.mp hq2 with h1 | h2
              · exact absurd h1 hqv
              · exact List.mem_append.mpr (Or.inl h2)

theorem lruStepF_preserves (fc : Nat) (hfc : 1 ≤ fc) (p : Int) (n : Nat)
    (m : MachineState) (hm : goodMachine fc m) :
    goodMachine fc (lruStepF p n m).2 := by
  obtain ⟨⟨hlen, hnd⟩, hqnd, hiff⟩ := hm
  by_cases hhit : m.frames.contains (some p) = true
  · have hpmem : p ∈ m.helper := (hiff p).mpr (contains_iff_mem.mp hhit)
    have hpc : m.helper.contains p = true := contains_iff_mem.mpr hpmem
    obtain ⟨hf, hh, _⟩ := lruStepF_hit p n m hhit hpc
    refine ⟨⟨by rw [hf]; exact hlen, by rw [hf]; exact hnd⟩, ?_, ?_⟩
    · rw [hh]
      exact List.nodup_cons.mpr ⟨List.Nodup.not_mem_erase hqnd, hqnd.erase p⟩
    · intro q
      rw [hf, hh]
      constructor
      · intro hq
        rcases List.mem_cons.mp hq with h1 | h2
        · subst h1
          exact contains_iff_mem.mp hhit
        · exact (hiff q).mp (List.mem_of_mem_erase h2)
      · intro hq
        by_cases hqp : q = p
        · subst hqp
          exact List.mem_cons_self _ _
        · exact List.mem_cons_of_mem _
            ((List.mem_erase_of_ne hqp).mpr ((hiff q).mpr hq))
  · rw [Bool.not_eq_true] at hhit
    have hpnot : some p ∉ m.frames := contains_false_iff.mp hhit
    have hpq : p ∉ m.helper := fun hc => hpnot ((hiff p).mp hc)
    by_cases hnone : m.frames.contains none = true
    · obtain ⟨hf, hh, _⟩ := lruStepF_load p n m hhit hnone
      obtain ⟨l₁, l₂, hdec, hidx, hset, hndnew, hlennew, hmemnew⟩ :=
        frames_fill_spec m.frames p hnd (contains_iff_mem.mp hnone) hpnot
      refine ⟨⟨?_, ?_⟩, ?_, ?_⟩
      · rw [hf, hset, hlennew]; exact hlen
      · rw [hf, hset]; exact hndnew
      · rw [hh]
        exact List.nodup_cons.mpr ⟨hpq, hqnd⟩
      · intro q
        rw [hf, hh, hset, hmemnew q]
        constructor
        · intro hq
          rcases List.mem_cons.mp hq with h1 | h2
          · exact Or.inl h1
          · exact Or.inr ((hiff q).mp h2)
        · rintro (rfl | hmem)
          · exact List.mem_cons_self _ _
          · exact List.mem_cons_of_mem _ ((hiff q).mpr hmem)
    · rw [Bool.not_eq_true] at hnone
      have hne : m.helper ≠ [] :=
        helper_ne_nil_of_full hfc ⟨⟨hlen, hnd⟩, hqnd, hiff⟩ hnone
      have hlast : m.helper.getLast? = some (m.helper.getLast hne) :=
        List.getLast?_eq_getLast _ hne
      obtain ⟨hf, hh, _⟩ :=
        lruStepF_evict p n m (m.helper.getLast hne) hhit hnone hlast
      have hdecomp : m.helper.dropLast ++ [m.helper.getLast hne] = m.helper :=
        List.dropLast_concat_getLast hne
      have hv : some (m.helper.getLast hne) ∈ m.frames :=
        (hiff _).mp (List.getLast_mem hne)
      obtain ⟨l₁, l₂, hdec, hidx, hset, hndnew, hlennew, hmemnew⟩ :=
        frames_replace_spec m.frames (m.helper.getLast hne) p hnd hv hpnot
      have h1 : (m.helper.getLast hne :: (m.helper.dropLast ++ [])).Nodup := by
        rw [← List.nodup_middle, hdecomp]
        exact hqnd
      obtain ⟨hvd, hdnd0⟩ := List.nodup_cons.mp h1
      have hvd' : m.helper.getLast hne ∉ m.helper.dropLast := fun hc =>
        hvd (List.mem_append.mpr (Or.inl hc))
      have hdnd : m.helper.dropLast.Nodup := by simpa using hdnd0
      have hpd : p ∉ m.helper.dropLast := fun hc =>
        hpq (by rw [← hdecomp]; exact List.mem_append.mpr (Or.inl hc))
      refine ⟨⟨?_, ?_⟩, ?_, ?_⟩
      · rw [hf, hset, hlennew]; exact hlen
      · rw [hf, hset]; exact hndnew
      · rw [hh]
        exact List.nodup_cons.mpr ⟨hpd, hdnd⟩
      · intro q
        rw [hf, hh, hset, hmemnew q]
        constructor
        · intro hq
          rcases List.mem_cons.mp hq with h1 | h2
          · exact Or.inl h1
          · have hqv : q ≠ m.helper.getLast hne := fun hqv =>
              hvd' (hqv ▸ h2)
            have hq2 : q ∈ m.helper := by
              rw [← hdecomp]
              exact List.mem_append.mpr (Or.inl h2)
            exact Or.inr ⟨(hiff q).mp hq2, hqv⟩
        · rintro (rfl | ⟨hmem, hqv⟩)
          · exact List.mem_cons_self _ _
          · have hq2 : q ∈ m.helper := (hiff q).mpr hmem
            rw [← hdecomp] at hq2
            rcases List.mem_append.mp hq2 with h1 | h2
            · exact List.mem_cons_of_mem _ h1
            · rcases List.mem_cons.mp h2 with h3 | h4
              · exact absurd h3 hqv
              · cases h4

theorem optStepF_preservesFrames (pages : List Int) (fc : Nat) (p : Int)
    (n : Nat) (m : MachineState) (hm : goodFrames fc m) :
    goodFrames fc (optStepF pages p n m).2 := by
  obtain ⟨hlen, hnd⟩ := hm
  by_cases hhit : m.frames.contains (some p) = true
  · obtain ⟨hf, _⟩ := optStepF_hit pages p n m hhit
    exact ⟨by rw [hf]; exact hlen, by rw [hf]; exact hnd⟩
  · rw [Bool.not_eq_true] at hhit
    have hpnot : some p ∉ m.frames := contains_false_iff.mp hhit
    by_cases hnone : m.frames.contains none = true
    · obtain ⟨hf, _⟩ := optStepF_load pages p n m hhit hnone
      obtain ⟨l₁, l₂, hdec, hidx, hset, hndnew, hlennew, hmemnew⟩ :=
        frames_fill_spec m.frames p hnd (contains_iff_mem.mp hnone) hpnot
      exact ⟨by rw [hf, hset, hlennew]; exact hlen,
        by rw [hf, hset]; exact hndnew⟩
    · rw [Bool.not_eq_true] at hnone
      rcases hk : jsIntKeys (m.frames.filterMap id) with _ | ⟨k, ks⟩
      · have hfr : (optStepF pages p n m).2.frames = m.frames := by
          have hnonemem : (none : Option Int) ∉ m.frames :=
            contains_false_iff.mp hnone
          simp [optStepF, hhit, hnone, hk, hpnot, hnonemem]
        exact ⟨by rw [hfr]; exact hlen, by rw [hfr]; exact hnd⟩
      · obtain ⟨hev, hf⟩ := optStepF_evict pages p n m k ks hhit hnone hk
        have hvmem0 : (ks.foldl (fun a b =>
            if futGT (nextUse pages n a) (nextUse pages n b) then a
            else b) k) ∈ k :: ks := by
          rcases foldl_pick_mem (nextUse pages n) ks k with h | h
          · rw [h]; exact List.mem_cons_self _ _
          · exact List.mem_cons_of_mem _ h
        rw [← hk] at hvmem0
        have hv : some (ks.foldl (fun a b =>
            if futGT (nextUse pages n a) (nextUse pages n b) then a
            else b) k) ∈ m.frames :=
          mem_filterMap_id.mp ((mem_jsIntKeys _ _).mp hvmem0)
        obtain ⟨l₁, l₂, hdec, hidx, hset, hndnew, hlennew, hmemnew⟩ :=
          frames_replace_spec m.frames _ p hnd hv hpnot
        exact ⟨by rw [hf, hset, hlennew]; exact hlen,
          by rw [hf, hset]; exact hndnew⟩

theorem prevMachine_good_fifo (pages : List Int) (fc : Nat) (hfc : 1 ≤ fc)
    (i : Nat) (hi : i < pages.length) :
    goodMachine fc (prevMachine fc (runFIFO pages fc) i) :=
  prevMachine_invariant fifoStepF fifoStepF_reflects
    (fun _ m => goodMachine fc m)
    (fun p n m hm => fifoStepF_preserves fc hfc p n m hm)
    pages fc (initMachine_goodMachine fc) i hi

theorem prevMachine_good_lru (pages : List Int) (fc : Nat) (hfc : 1 ≤ fc)
    (i : Nat) (hi : i < pages.length) :
    goodMachine fc (prevMachine fc (runLRU pages fc) i) :=
  prevMachine_invariant lruStepF lruStepF_reflects
    (fun _ m => goodMachine fc m)
    (fun p n m hm => lruStepF_preserves fc hfc p n m hm)
    pages fc (initMachine_goodMachine fc) i hi

theorem prevMachine_good_opt (pages : List Int) (fc : Nat)
    (i : Nat) (hi : i < pages.length) :
    goodFrames fc (prevMachine fc (runOptimal pages fc) i) :=
  prevMachine_invariant (optStepF pages) (optStepF_reflects pages)
    (fun _ m => goodFrames fc m)
    (fun p n m hm => optStepF_preservesFrames pages fc p n m hm)
    pages fc ⟨by simp [initMachine], by
      show ((List.replicate fc (none : Option Int)).filterMap id).Nodup
      rw [filterMap_id_replicate_none]
      exact List.nodup_nil⟩ i hi

theorem snap_good_fifo (pages : List Int) (fc : Nat) (hfc : 1 ≤ fc)
    (i : Nat) (hi : i < pages.length) :
    goodMachine fc (machOf (snapAt (runFIFO pages fc) i)) := by
  have h := runGo_invariant fifoStepF fifoStepF_reflects
    (fun _ m => goodMachine fc m)
    (fun p n m hm => fifoStepF_preserves fc hfc p n m hm)
    pages 0 (initMachine fc) (initMachine_goodMachine fc) i hi
  exact h

theorem snap_good_lru (pages : List Int) (fc : Nat) (hfc : 1 ≤ fc)
    (i : Nat) (hi : i < pages.length) :
    goodMachine fc (machOf (snapAt (runLRU pages fc) i)) := by
  have h := runGo_invariant lruStepF lruStepF_reflects
    (fun _ m => goodMachine fc m)
    (fun p n m hm => lruStepF_preserves fc hfc p n m hm)
    pages 0 (initMachine fc) (initMachine_goodMachine fc) i hi
  exact h

theorem snap_good_opt (pages : List Int) (fc : Nat)
    (i : Nat) (hi : i < pages.length) :
    goodFrames fc (machOf (snapAt (runOptimal pages fc) i)) := by
  have h := runGo_invariant (optStepF pages) (optStepF_reflects pages)
    (fun _ m => goodFrames fc m)
    (fun p n m hm => optStepF_preservesFrames pages fc p n m hm)
    pages 0 (initMachine fc) ⟨by simp [initMachine], by
      show ((List.replicate fc (none : Option Int)).filterMap id).Nodup
      rw [filterMap_id_replicate_none]
      exact List.nodup_nil⟩ i hi
  exact h

theorem snap_stats (f) (hf : reflects f)
    (hst : ∀ p n m,
      (f p n m).2.stats =
        ⟨m.stats.hits + 1, m.stats.faults, m.stats.total + 1⟩ ∨
      (f p n m).2.stats =
        ⟨m.stats.hits, m.stats.faults + 1, m.stats.total + 1⟩)
    (pages : List Int) (fc : Nat) (i : Nat) (hi : i < pages.length) :
    (snapAt (runGo f pages 0 (initMachine fc)) i).stats.hits +
      (snapAt (runGo f pages 0 (initMachine fc)) i).stats.faults =
      (snapAt (runGo f pages 0 (initMachine fc)) i).stats.total ∧
    (snapAt (runGo f pages 0 (initMachine fc)) i).stats.total = i + 1 := by
  have h := runGo_invariant f hf
    (fun n m => m.stats.hits + m.stats.faults = m.stats.total ∧
      m.stats.total = n)
    (fun p n m hm => by
      obtain ⟨ha, hb⟩ := hm
      rcases hst p n m with h | h <;> rw [h] <;>
        exact ⟨by simp; omega, by simp [hb]⟩)
    pages 0 (initMachine fc) ⟨rfl, rfl⟩ i hi
  obtain ⟨h1, h2⟩ := h
  have h1' : (snapAt (runGo f pages 0 (initMachine fc)) i).stats.hits +
      (snapAt (runGo f pages 0 (initMachine fc)) i).stats.faults =
      (snapAt (runGo f pages 0 (initMachine fc)) i).stats.total := h1
  have h2' : (snapAt (runGo f pages 0 (initMachine fc)) i).stats.total =
      0 + i + 1 := h2
  exact ⟨h1', by omega⟩

/-! ### Dispatch in `run` -/

theorem run_ok_cases (pages : List Int) (fc : Nat) (alg : String)
    (hist : List StepSnapshot) (h : run pages fc alg = Except.ok hist) :
    (alg = "FIFO" ∧ hist = runFIFO pages fc) ∨
    (alg = "LRU" ∧ hist = runLRU pages fc) ∨
    (alg = "OPTIMAL" ∧ hist = runOptimal pages fc) := by
  unfold run at h
  split at h
  · exact Or.inl ⟨rfl, (Except.ok.inj h).symm⟩
  · exact Or.inr (Or.inl ⟨rfl, (Except.ok.inj h).symm⟩)
  · exact Or.inr (Or.inr ⟨rfl, (Except.ok.inj h).symm⟩)
  · cases h

theorem run_default (pages : List Int) (fc : Nat) (alg : String)
    (h1 : alg ≠ "FIFO") (h2 : alg ≠ "LRU") (h3 : alg ≠ "OPTIMAL") :
    run pages fc alg = Except.error ("Unknown algorithm selected.") := by
  unfold run
  split
  · exact absurd rfl h1
  · exact absurd rfl h2
  · exact absurd rfl h3
  · rfl

/-! ### Claim C5: hit classification -/

/-- A step is recorded as a hit in its snapshot exactly when the
referenced page was resident before the step was processed. -/
def hitSpec (fc : Nat) (hist : List StepSnapshot) (i : Nat) : Prop :=
  (snapAt hist i).isHit =
    (prevMachine fc hist i).frames.contains (some ((snapAt hist i).page))

/-- C5: for every valid input and each of the three policies, a step is a
hit iff the referenced page was present in the frame set before the step
(equivalently, in the previous snapshot's frames, or in the all-empty
initial frame set for step 0); the `isHit` flag never contradicts frame
membership across consecutive snapshots. -/
theorem hit_iff_resident_before (pages : List Int) (fc : Nat) (alg : String)
    (hist : List StepSnapshot) (hp : pages ≠ []) (hfc1 : 1 ≤ fc)
    (hfc10 : fc ≤ 10) (hrun : run pages fc alg = Except.ok hist)
    (i : Nat) (hi : i < pages.length) : hitSpec fc hist i := by
  rcases run_ok_cases pages fc alg hist hrun with ⟨_, rfl⟩ | ⟨_, rfl⟩ |
    ⟨_, rfl⟩
  · have hs : snapAt (runFIFO pages fc) i =
        (fifoStepF (pages.getD i 0) i
          (prevMachine fc (runFIFO pages fc) i)).1 :=
      run_snap_eq fifoStepF fifoStepF_reflects pages fc i hi
    have hpage : (snapAt (runFIFO pages fc) i).page = pages.getD i 0 := by
      rw [hs]
      exact (fifoStepF_reflects _ _ _).1
    unfold hitSpec
    rw [hpage, hs]
    exact fifoStepF_isHit _ _ _
  · have hs : snapAt (runLRU pages fc) i =
        (lruStepF (pages.getD i 0) i
          (prevMachine fc (runLRU pages fc) i)).1 :=
      run_snap_eq lruStepF lruStepF_reflects pages fc i hi
    have hpage : (snapAt (runLRU pages fc) i).page = pages.getD i 0 := by
      rw [hs]
      exact (lruStepF_reflects _ _ _).1
    unfold hitSpec
    rw [hpage, hs]
    exact lruStepF_isHit _ _ _
  · have hs : snapAt (runOptimal pages fc) i =
        (optStepF pages (pages.getD i 0) i
          (prevMachine fc (runOptimal pages fc) i)).1 :=
      run_snap_eq (optStepF pages) (optStepF_reflects pages) pages fc i hi
    have hpage : (snapAt (runOptimal pages fc) i).page = pages.getD i 0 := by
      rw [hs]
      exact (optStepF_reflects pages _ _ _).1
    unfold hitSpec
    rw [hpage, hs]
    exact optStepF_isHit pages _ _ _

/-- C5 witness. -/
theorem hit_iff_resident_before_witness :
    hitSpec 2 (runFIFO [1, 2, 1, 3] 2) 2 :=
  hit_iff_resident_before [1, 2, 1, 3] 2 "FIFO" (runFIFO [1, 2, 1, 3] 2)
    (by decide) (by decide) (by decide) rfl 2 (by decide)

/-! ### Claim C6: cumulative statistics -/

/-- Hits plus faults equals total, which is the step index plus one. -/
def statsSpec (hist : List StepSnapshot) (i : Nat) : Prop :=
  (snapAt hist i).stats.hits + (snapAt hist i).stats.faults =
    (snapAt hist i).stats.total ∧
  (snapAt hist i).stats.total = i + 1

theorem stats_cumulative_go (f) (hf : reflects f)
    (hst : ∀ p n m,
      (f p n m).2.stats =
        ⟨m.stats.hits + 1, m.stats.faults, m.stats.total + 1⟩ ∨
      (f p n m).2.stats =
        ⟨m.stats.hits, m.stats.faults + 1, m.stats.total + 1⟩)
    (pages : List Int) (fc : Nat) (hp : pages ≠ []) :
    (runGo f pages 0 (initMachine fc)).length = pages.length ∧
    (∀ i, i < (runGo f pages 0 (initMachine fc)).length →
      statsSpec (runGo f pages 0 (initMachine fc)) i) ∧
    (snapAt (runGo f pages 0 (initMachine fc))
      ((runGo f pages 0 (initMachine fc)).length - 1)).stats.total =
      pages.length := by
  have hlen := runGo_length f pages 0 (initMachine fc)
  refine ⟨hlen, ?_, ?_⟩
  · intro i hi
    rw [hlen] at hi
    exact snap_stats f hf hst pages fc i hi
  · have hlp : 0 < pages.length := List.length_pos.mpr hp
    have h := snap_stats f hf hst pages fc (pages.length - 1) (by omega)
    rw [hlen, h.2]
    omega

/-- C6: for every valid input and each of the three policies, the history
has exactly one snapshot per input page, at every snapshot
`hits + faults = total = step index + 1`, and the final total equals the
length of the reference string. -/
theorem stats_cumulative (pages : List Int) (fc : Nat) (alg : String)
    (hist : List StepSnapshot) (hp : pages ≠ []) (hfc1 : 1 ≤ fc)
    (hfc10 : fc ≤ 10) (hrun : run pages fc alg = Except.ok hist) :
    hist.length = pages.length ∧
    (∀ i, i < hist.length → statsSpec hist i) ∧
    (snapAt hist (hist.length - 1)).stats.total = pages.length := by
  rcases run_ok_cases pages fc alg hist hrun with ⟨_, rfl⟩ | ⟨_, rfl⟩ |
    ⟨_, rfl⟩
  · exact stats_cumulative_go fifoStepF fifoStepF_reflects fifoStepF_stats
      pages fc hp
  · exact stats_cumulative_go lruStepF lruStepF_reflects lruStepF_stats
      pages fc hp
  · exact stats_cumulative_go (optStepF pages) (optStepF_reflects pages)
      (optStepF_stats pages) pages fc hp

/-- C6 witness. -/
theorem stats_cumulative_witness :
    (runLRU [4, 5, 4] 3).length = ([4, 5, 4] : List Int).length ∧
    (∀ i, i < (runLRU [4, 5, 4] 3).length →
      statsSpec (runLRU [4, 5, 4] 3) i) ∧
    (snapAt (runLRU [4, 5, 4] 3)
      ((runLRU [4, 5, 4] 3).length - 1)).stats.total =
      ([4, 5, 4] : List Int).length :=
  stats_cumulative [4, 5, 4] 3 "LRU" (runLRU [4, 5, 4] 3) (by decide)
    (by decide) (by decide) rfl

/-! ### Claim C7: frame and helper-structure invariants -/

/-- No duplicate non-empty entries in the frame set. -/
def framesNodupSpec (hist : List StepSnapshot) (i : Nat) : Prop :=
  ((snapAt hist i).frames.filterMap id).Nodup

/-- The helper structure holds exactly the resident pages. -/
def helperMatchSpec (hist : List StepSnapshot) (i : Nat) : Prop :=
  ∀ q : Int, q ∈ (snapAt hist i).helperQueue ↔ some q ∈ (snapAt hist i).frames

/-- C7: for every valid input and each policy, no snapshot's frame set
contains duplicate non-empty entries, and for FIFO and LRU the set of
pages in the helper structure equals the set of non-empty frame
entries. -/
theorem frames_nodup_helper_matches (pages : List Int) (fc : Nat)
    (alg : String) (hist : List StepSnapshot) (hp : pages ≠ [])
    (hfc1 : 1 ≤ fc) (hfc10 : fc ≤ 10)
    (hrun : run pages fc alg = Except.ok hist) :
    (∀ i, i < hist.length → framesNodupSpec hist i) ∧
    ((alg = "FIFO" ∨ alg = "LRU") →
      ∀ i, i < hist.length → helperMatchSpec hist i) := by
  rcases run_ok_cases pages fc alg hist hrun with ⟨halg, rfl⟩ | ⟨halg, rfl⟩ |
    ⟨halg, rfl⟩
  · have hlen : (runFIFO pages fc).length = pages.length :=
      runGo_length _ pages 0 _
    constructor
    · intro i hi
      rw [hlen] at hi
      exact (snap_good_fifo pages fc hfc1 i hi).1.2
    · intro _ i hi
      rw [hlen] at hi
      exact (snap_good_fifo pages fc hfc1 i hi).2.2
  · have hlen : (runLRU pages fc).length = pages.length :=
      runGo_length _ pages 0 _
    constructor
    · intro i hi
      rw [hlen] at hi
      exact (snap_good_lru pages fc hfc1 i hi).1.2
    · intro _ i hi
      rw [hlen] at hi
      exact (snap_good_lru pages fc hfc1 i hi).2.2
  · have hlen : (runOptimal pages fc).length = pages.length :=
      runGo_length _ pages 0 _
    constructor
    · intro i hi
      rw [hlen] at hi
      exact (snap_good_opt pages fc i hi).2
    · subst halg
      rintro (h | h) <;> exact absurd h (by decide)

/-- C7 witness. -/
theorem frames_nodup_helper_matches_witness :
    (∀ i, i < (runFIFO [1, 2, 3, 1] 2).length →
      framesNodupSpec (runFIFO [1, 2, 3, 1] 2) i) ∧
    (("FIFO" = "FIFO" ∨ "FIFO" = "LRU") →
      ∀ i, i < (runFIFO [1, 2, 3, 1] 2).length →
        helperMatchSpec (runFIFO [1, 2, 3, 1] 2) i) :=
  frames_nodup_helper_matches [1, 2, 3, 1] 2 "FIFO" (runFIFO [1, 2, 3, 1] 2)
    (by decide) (by decide) (by decide) rfl

/-! ### Claim C8: the only error is an unsupported policy -/

/-- C8: under the caller-enforced precondition (`pages` non-empty, frame
count in [1, 10]), `run` fails exactly on an unrecognized policy tag, on
a recognized one it never fails, and it is deterministic.  The
precondition is part of the statement because outside it the source has
a further failure mode this embedding does not reproduce: with zero
frames, `runOptimal` reaches `reduce` over the empty key set of
`futureUses` and throws a TypeError, where `optStepF` returns a normal
snapshot; for a frame count of at least one that branch is unreachable
(the frames are full at a replacement fault, so the key set is
non-empty) and the embedding and the source agree. -/
theorem run_unsupported_policy (pages : List Int) (fc : Nat) (alg : String)
    (hp : pages ≠ []) (hfc1 : 1 ≤ fc) (hfc10 : fc ≤ 10) :
    ((∃ e, run pages fc alg = Except.error e) ↔
      ¬(alg = "FIFO" ∨ alg = "LRU" ∨ alg = "OPTIMAL")) ∧
    (∀ h1 h2, run pages fc alg = Except.ok h1 →
      run pages fc alg = Except.ok h2 → h1 = h2) ∧
    ((alg = "FIFO" ∨ alg = "LRU" ∨ alg = "OPTIMAL") →
      ∃ hist, run pages fc alg = Except.ok hist) := by
  refine ⟨⟨?_, ?_⟩, ?_, ?_⟩
  · rintro ⟨e, he⟩ (rfl | rfl | rfl)
    · rw [show run pages fc ("FIFO") = Except.ok (runFIFO pages fc) from rfl]
        at he
      cases he
    · rw [show run pages fc ("LRU") = Except.ok (runLRU pages fc) from rfl]
        at he
      cases he
    · rw [show run pages fc ("OPTIMAL") =
          Except.ok (runOptimal pages fc) from rfl] at he
      cases he
  · intro hnot
    push_neg at hnot
    exact ⟨"Unknown algorithm selected.",
      run_default pages fc alg hnot.1 hnot.2.1 hnot.2.2⟩
  · intro h1 h2 e1 e2
    rw [e1] at e2
    exact Except.ok.inj e2
  · rintro (rfl | rfl | rfl)
    · exact ⟨runFIFO pages fc, rfl⟩
    · exact ⟨runLRU pages fc, rfl⟩
    · exact ⟨runOptimal pages fc, rfl⟩

/-- C8 witness. -/
theorem run_unsupported_policy_witness :
    ∃ e, run [1] 1 ("MRU") = Except.error e :=
  (run_unsupported_policy [1] 1 ("MRU") (by decide) (by decide)
    (by decide)).1.mpr (by decide)

/-! ### Claim C1: FIFO evicts in load order -/

/-- The per-step contract of the FIFO order queue: hits leave it
untouched, a compulsory fault appends the new page, and a replacement
fault evicts the front of the queue and appends the new page to the
back — so eviction order is exactly load order. -/
def fifoStepSpec (fc : Nat) (hist : List StepSnapshot) (i : Nat) : Prop :=
  ((snapAt hist i).isHit = true →
    (snapAt hist i).helperQueue = (prevMachine fc hist i).helper ∧
    (snapAt hist i).pageToEvict = none) ∧
  ((snapAt hist i).isHit = false →
    (prevMachine fc hist i).frames.contains none = true →
    (snapAt hist i).helperQueue =
      (prevMachine fc hist i).helper ++ [(snapAt hist i).page] ∧
    (snapAt hist i).pageToEvict = none) ∧
  ((snapAt hist i).isHit = false →
    (prevMachine fc hist i).frames.contains none = false →
    ∃ v rest, (prevMachine fc hist i).helper = v :: rest ∧
      (snapAt hist i).pageToEvict = some v ∧
      (snapAt hist i).helperQueue = rest ++ [(snapAt hist i).page])

/-- C1: for every non-empty page sequence and frame count in [1, 10], the
FIFO run leaves the order queue untouched on hits, and at every
replacement fault evicts the front of the queue (the page loaded
earliest) and appends the newly loaded page to the back. -/
theorem fifo_eviction_follows_load_order (pages : List Int) (fc : Nat)
    (hp : pages ≠ []) (hfc1 : 1 ≤ fc) (hfc10 : fc ≤ 10)
    (i : Nat) (hi : i < pages.length) :
    fifoStepSpec fc (runFIFO pages fc) i := by
  have hs : snapAt (runFIFO pages fc) i =
      (fifoStepF (pages.getD i 0) i
        (prevMachine fc (runFIFO pages fc) i)).1 :=
    run_snap_eq fifoStepF fifoStepF_reflects pages fc i hi
  have hR := fifoStepF_reflects (pages.getD i 0) i
    (prevMachine fc (runFIFO pages fc) i)
  have hpage : (snapAt (runFIFO pages fc) i).page = pages.getD i 0 := by
    rw [hs]
    exact hR.1
  have hisHit : (snapAt (runFIFO pages fc) i).isHit =
      (prevMachine fc (runFIFO pages fc) i).frames.contains
        (some (pages.getD i 0)) := by
    rw [hs]
    exact fifoStepF_isHit _ _ _
  have hgood := prevMachine_good_fifo pages fc hfc1 i hi
  refine ⟨?_, ?_, ?_⟩
  · intro hhit
    have hcont : (prevMachine fc (runFIFO pages fc) i).frames.contains
        (some (pages.getD i 0)) = true := by
      rw [← hisHit]
      exact hhit
    obtain ⟨_, hh2, hev⟩ := fifoStepF_hit (pages.getD i 0) i
      (prevMachine fc (runFIFO pages fc) i) hcont
    constructor
    · rw [hs, hR.2.2.2.1, hh2]
    · rw [hs, hev]
  · intro hmiss hcontn
    have hcont : (prevMachine fc (runFIFO pages fc) i).frames.contains
        (some (pages.getD i 0)) = false := by
      rw [← hisHit]
      exact hmiss
    obtain ⟨_, hh2, hev⟩ := fifoStepF_load (pages.getD i 0) i
      (prevMachine fc (runFIFO pages fc) i) hcont hcontn
    constructor
    · rw [hpage, hs, hR.2.2.2.1, hh2]
    · rw [hs, hev]
  · intro hmiss hcontn
    have hcont : (prevMachine fc (runFIFO pages fc) i).frames.contains
        (some (pages.getD i 0)) = false := by
      rw [← hisHit]
      exact hmiss
    have hne : (prevMachine fc (runFIFO pages fc) i).helper ≠ [] :=
      helper_ne_nil_of_full hfc1 hgood hcontn
    rcases hq : (prevMachine fc (runFIFO pages fc) i).helper with _ | ⟨v, rest⟩
    · exact absurd hq hne
    · obtain ⟨_, hh2, hev⟩ := fifoStepF_evict (pages.getD i 0) i
        (prevMachine fc (runFIFO pages fc) i) v rest hcont hcontn hq
      refine ⟨v, rest, rfl, ?_, ?_⟩
      · rw [hs, hev]
      · rw [hpage, hs, hR.2.2.2.1, hh2]

/-- C1 witness. -/
theorem fifo_eviction_follows_load_order_witness :
    fifoStepSpec 2 (runFIFO [1, 2, 3, 1] 2) 2 :=
  fifo_eviction_follows_load_order [1, 2, 3, 1] 2 (by decide) (by decide)
    (by decide) 2 (by decide)

/-! ### Claim C2: LRU keeps its stack in recency order -/

/-- The per-step contract of the LRU stack (most-recently-used first): a
hit moves the referenced page to the front, a compulsory fault pushes
the new page onto the front, and a replacement fault evicts the page at
the back (the least recently used) and pushes the new page at the
front. -/
def lruStepSpec (fc : Nat) (hist : List StepSnapshot) (i : Nat) : Prop :=
  ((snapAt hist i).isHit = true →
    (snapAt hist i).helperQueue =
      (snapAt hist i).page :: (prevMachine fc hist i).helper.erase
        ((snapAt hist i).page) ∧
    (snapAt hist i).pageToEvict = none) ∧
  ((snapAt hist i).isHit = false →
    (prevMachine fc hist i).frames.contains none = true →
    (snapAt hist i).helperQueue =
      (snapAt hist i).page :: (prevMachine fc hist i).helper ∧
    (snapAt hist i).pageToEvict = none) ∧
  ((snapAt hist i).isHit = false →
    (prevMachine fc hist i).frames.contains none = false →
    ∃ v, (prevMachine fc hist i).helper.getLast? = some v ∧
      (snapAt hist i).pageToEvict = some v ∧
      (snapAt hist i).helperQueue =
        (snapAt hist i).page :: (prevMachine fc hist i).helper.dropLast)

/-- C2: for every non-empty page sequence and frame count in [1, 10], the
LRU run keeps its helper stack most-recently-used first: a hit moves the
referenced page to the front, a fault makes the newly loaded page the
front, and at every replacement fault the victim is the page at the
least-recently-used position (the back of the stack) before loading. -/
theorem lru_stack_recency_order (pages : List Int) (fc : Nat)
    (hp : pages ≠ []) (hfc1 : 1 ≤ fc) (hfc10 : fc ≤ 10)
    (i : Nat) (hi : i < pages.length) :
    lruStepSpec fc (runLRU pages fc) i := by
  have hs : snapAt (runLRU pages fc) i =
      (lruStepF (pages.getD i 0) i
        (prevMachine fc (runLRU pages fc) i)).1 :=
    run_snap_eq lruStepF lruStepF_reflects pages fc i hi
  have hR := lruStepF_reflects (pages.getD i 0) i
    (prevMachine fc (runLRU pages fc) i)
  have hpage : (snapAt (runLRU pages fc) i).page = pages.getD i 0 := by
    rw [hs]
    exact hR.1
  have hisHit : (snapAt (runLRU pages fc) i).isHit =
      (prevMachine fc (runLRU pages fc) i).frames.contains
        (some (pages.getD i 0)) := by
    rw [hs]
    exact lruStepF_isHit _ _ _
  have hgood := prevMachine_good_lru pages fc hfc1 i hi
  refine ⟨?_, ?_, ?_⟩
  · intro hhit
    have hcont : (prevMachine fc (runLRU pages fc) i).frames.contains
        (some (pages.getD i 0)) = true := by
      rw [← hisHit]
      exact hhit
    have hpmem : pages.getD i 0 ∈ (prevMachine fc (runLRU pages fc) i).helper :=
      (hgood.2.2 _).mpr (contains_iff_mem.mp hcont)
    obtain ⟨_, hh2, hev⟩ := lruStepF_hit (pages.getD i 0) i
      (prevMachine fc (runLRU pages fc) i) hcont (contains_iff_mem.mpr hpmem)
    constructor
    · rw [hpage, hs, hR.2.2.2.1, hh2]
    · rw [hs, hev]
  · intro hmiss hcontn
    have hcont : (prevMachine fc (runLRU pages fc) i).frames.contains
        (some (pages.getD i 0)) = false := by
      rw [← hisHit]
      exact hmiss
    obtain ⟨_, hh2, hev⟩ := lruStepF_load (pages.getD i 0) i
      (prevMachine fc (runLRU pages fc) i) hcont hcontn
    constructor
    · rw [hpage, hs, hR.2.2.2.1, hh2]
    · rw [hs, hev]
  · intro hmiss hcontn
    have hcont : (prevMachine fc (runLRU pages fc) i).frames.contains
        (some (pages.getD i 0)) = false := by
      rw [← hisHit]
      exact hmiss
    have hne : (prevMachine fc (runLRU pages fc) i).helper ≠ [] :=
      helper_ne_nil_of_full hfc1 hgood hcontn
    have hlast : (prevMachine fc (runLRU pages fc) i).helper.getLast? =
        some ((prevMachine fc (runLRU pages fc) i).helper.getLast hne) :=
      List.getLast?_eq_getLast _ hne
    obtain ⟨_, hh2, hev⟩ := lruStepF_evict (pages.getD i 0) i
      (prevMachine fc (runLRU pages fc) i)
      ((prevMachine fc (runLRU pages fc) i).helper.getLast hne)
      hcont hcontn hlast
    refine ⟨(prevMachine fc (runLRU pages fc) i).helper.getLast hne,
      hlast, ?_, ?_⟩
    · rw [hs, hev]
    · rw [hpage, hs, hR.2.2.2.1, hh2]

/-- C2 witness. -/
theorem lru_stack_recency_order_witness :
    lruStepSpec 2 (runLRU [1, 2, 1, 3] 2) 3 :=
  lru_stack_recency_order [1, 2, 1, 3] 2 (by decide) (by decide)
    (by decide) 3 (by decide)

/-! ### Claim C3: Optimal evicts a farthest-future resident -/

/-- At every replacement fault the victim is resident and its next use
(`none` = never again, treated as infinitely far) is at least as far as
that of every resident page. -/
def optVictimSpec (pages : List Int) (fc : Nat) (hist : List StepSnapshot)
    (i : Nat) : Prop :=
  (snapAt hist i).isHit = false →
  (prevMachine fc hist i).frames.contains none = false →
  ∃ v, (snapAt hist i).pageToEvict = some v ∧
    some v ∈ (prevMachine fc hist i).frames ∧
    ∀ q : Int, some q ∈ (prevMachine fc hist i).frames →
      futGT (nextUse pages i q) (nextUse pages i v) = false

theorem resident_exists_of_full {fc : Nat} {m : MachineState}
    (hfc : 1 ≤ fc) (hlen : m.frames.length = fc)
    (hfull : m.frames.contains none = false) :
    ∃ w : Int, some w ∈ m.frames := by
  rcases hfm : m.frames with _ | ⟨o, t⟩
  · rw [hfm] at hlen
    simp at hlen
    omega
  · rcases o with _ | w
    · have hc : m.frames.contains none = true :=
        contains_iff_mem.mpr (by rw [hfm]; exact List.mem_cons_self _ _)
      rw [hfull] at hc
      cases hc
    · exact ⟨w, List.mem_cons_self _ _⟩

/-- C3: for every non-empty page sequence and frame count in [1, 10], at
every replacement fault the OPTIMAL run evicts a resident page whose next
occurrence in the not-yet-processed remainder of the reference string is
farthest in the future, a resident page with no future occurrence
counting as infinitely far; the tie-break is the (deterministic)
enumeration order of the `futureUses` keys. -/
theorem optimal_evicts_farthest (pages : List Int) (fc : Nat)
    (hp : pages ≠ []) (hfc1 : 1 ≤ fc) (hfc10 : fc ≤ 10)
    (i : Nat) (hi : i < pages.length) :
    optVictimSpec pages fc (runOptimal pages fc) i := by
  intro hmiss hcontn
  have hs : snapAt (runOptimal pages fc) i =
      (optStepF pages (pages.getD i 0) i
        (prevMachine fc (runOptimal pages fc) i)).1 :=
    run_snap_eq (optStepF pages) (optStepF_reflects pages) pages fc i hi
  have hisHit : (snapAt (runOptimal pages fc) i).isHit =
      (prevMachine fc (runOptimal pages fc) i).frames.contains
        (some (pages.getD i 0)) := by
    rw [hs]
    exact optStepF_isHit pages _ _ _
  have hcont : (prevMachine fc (runOptimal pages fc) i).frames.contains
      (some (pages.getD i 0)) = false := by
    rw [← hisHit]
    exact hmiss
  have hgoodF := prevMachine_good_opt pages fc i hi
  obtain ⟨w, hw⟩ := resident_exists_of_full hfc1 hgoodF.1 hcontn
  rcases hk : jsIntKeys ((prevMachine fc (runOptimal pages fc) i).frames.filterMap id)
    with _ | ⟨k, ks⟩
  · exact absurd hk (jsIntKeys_ne_nil (mem_filterMap_id.mpr hw))
  · obtain ⟨hev, _⟩ := optStepF_evict pages (pages.getD i 0) i
      (prevMachine fc (runOptimal pages fc) i) k ks hcont hcontn hk
    refine ⟨_, by rw [hs]; exact hev, ?_, ?_⟩
    · have hm0 : (ks.foldl (fun a b =>
          if futGT (nextUse pages i a) (nextUse pages i b) then a
          else b) k) ∈ k :: ks := by
        rcases foldl_pick_mem (nextUse pages i) ks k with h | h
        · rw [h]
          exact List.mem_cons_self _ _
        · exact List.mem_cons_of_mem _ h
      rw [← hk] at hm0
      exact mem_filterMap_id.mp ((mem_jsIntKeys _ _).mp hm0)
    · intro q hq
      have hqk : q ∈ jsIntKeys
          ((prevMachine fc (runOptimal pages fc) i).frames.filterMap id) :=
        (mem_jsIntKeys _ _).mpr (mem_filterMap_id.mpr hq)
      rw [hk] at hqk
      exact foldl_pick_max (nextUse pages i) ks k q (List.mem_cons.mp hqk)

/-- C3 witness. -/
theorem optimal_evicts_farthest_witness :
    optVictimSpec [1, 2, 3, 1] 2 (runOptimal [1, 2, 3, 1] 2) 2 :=
  optimal_evicts_farthest [1, 2, 3, 1] 2 (by decide) (by decide)
    (by decide) 2 (by decide)

/-! ### Claim C10: the evicted-page field -/

/-- The evicted field is populated exactly at replacement faults, and the
victim is then replaced in place by the referenced page at the victim's
own frame index, all other slots unchanged. -/
def evictSpec (fc : Nat) (hist : List StepSnapshot) (i : Nat) : Prop :=
  ((snapAt hist i).pageToEvict ≠ none ↔
    ((snapAt hist i).isHit = false ∧
      (prevMachine fc hist i).frames.contains none = false)) ∧
  ∀ v : Int, (snapAt hist i).pageToEvict = some v →
    ∃ j, (prevMachine fc hist i).frames.get? j = some (some v) ∧
      (snapAt hist i).frames =
        (prevMachine fc hist i).frames.set j (some ((snapAt hist i).page))

theorem evictSpec_fifo (pages : List Int) (fc : Nat) (hfc1 : 1 ≤ fc)
    (i : Nat) (hi : i < pages.length) :
    evictSpec fc (runFIFO pages fc) i := by
  have hs : snapAt (runFIFO pages fc) i =
      (fifoStepF (pages.getD i 0) i
        (prevMachine fc (runFIFO pages fc) i)).1 :=
    run_snap_eq fifoStepF fifoStepF_reflects pages fc i hi
  have hR := fifoStepF_reflects (pages.getD i 0) i
    (prevMachine fc (runFIFO pages fc) i)
  have hpage : (snapAt (runFIFO pages fc) i).page = pages.getD i 0 := by
    rw [hs]
    exact hR.1
  have hisHit : (snapAt (runFIFO pages fc) i).isHit =
      (prevMachine fc (runFIFO pages fc) i).frames.contains
        (some (pages.getD i 0)) := by
    rw [hs]
    exact fifoStepF_isHit _ _ _
  have hgood := prevMachine_good_fifo pages fc hfc1 i hi
  by_cases hcont : (prevMachine fc (runFIFO pages fc) i).frames.contains
      (some (pages.getD i 0)) = true
  · obtain ⟨_, _, hev⟩ := fifoStepF_hit (pages.getD i 0) i
      (prevMachine fc (runFIFO pages fc) i) hcont
    constructor
    · constructor
      · intro hne
        rw [hs, hev] at hne
        exact absurd rfl hne
      · rintro ⟨hmiss, _⟩
        rw [hisHit, hcont] at hmiss
        cases hmiss
    · intro v hv
      rw [hs, hev] at hv
      cases hv
  · rw [Bool.not_eq_true] at hcont
    by_cases hcontn : (prevMachine fc (runFIFO pages fc) i).frames.contains
        none = true
    · obtain ⟨_, _, hev⟩ := fifoStepF_load (pages.getD i 0) i
        (prevMachine fc (runFIFO pages fc) i) hcont hcontn
      constructor
      · constructor
        · intro hne
          rw [hs, hev] at hne
          exact absurd rfl hne
        · rintro ⟨_, hn⟩
          rw [hcontn] at hn
          cases hn
      · intro v hv
        rw [hs, hev] at hv
        cases hv
    · rw [Bool.not_eq_true] at hcontn
      have hne : (prevMachine fc (runFIFO pages fc) i).helper ≠ [] :=
        helper_ne_nil_of_full hfc1 hgood hcontn
      rcases hq : (prevMachine fc (runFIFO pages fc) i).helper
        with _ | ⟨v, rest⟩
      · exact absurd hq hne
      · obtain ⟨hf2, _, hev⟩ := fifoStepF_evict (pages.getD i 0) i
          (prevMachine fc (runFIFO pages fc) i) v rest hcont hcontn hq
        have hvmem : some v ∈ (prevMachine fc (runFIFO pages fc) i).frames :=
          (hgood.2.2 v).mp (by rw [hq]; exact List.mem_cons_self _ _)
        constructor
        · constructor
          · intro _
            exact ⟨by rw [hisHit]; exact hcont, hcontn⟩
          · intro _
            rw [hs, hev]
            simp
        · intro v' hv'
          rw [hs, hev] at hv'
          have hvv : v = v' := Option.some.inj hv'
          subst hvv
          obtain ⟨l₁, l₂, hdec, hnl₁, hidx⟩ := indexOf_split hvmem
          refine ⟨l₁.length, ?_, ?_⟩
          · rw [hdec]
            exact get?_length_append _ _ _
          · rw [hpage, hs, hR.2.2.1, hf2, hidx]

theorem evictSpec_lru (pages : List Int) (fc : Nat) (hfc1 : 1 ≤ fc)
    (i : Nat) (hi : i < pages.length) :
    evictSpec fc (runLRU pages fc) i := by
  have hs : snapAt (runLRU pages fc) i =
      (lruStepF (pages.getD i 0) i
        (prevMachine fc (runLRU pages fc) i)).1 :=
    run_snap_eq lruStepF lruStepF_reflects pages fc i hi
  have hR := lruStepF_reflects (pages.getD i 0) i
    (prevMachine fc (runLRU pages fc) i)
  have hpage : (snapAt (runLRU pages fc) i).page = pages.getD i 0 := by
    rw [hs]
    exact hR.1
  have hisHit : (snapAt (runLRU pages fc) i).isHit =
      (prevMachine fc (runLRU pages fc) i).frames.contains
        (some (pages.getD i 0)) := by
    rw [hs]
    exact lruStepF_isHit _ _ _
  have hgood := prevMachine_good_lru pages fc hfc1 i hi
  by_cases hcont : (prevMachine fc (runLRU pages fc) i).frames.contains
      (some (pages.getD i 0)) = true
  · have hpmem : pages.getD i 0 ∈ (prevMachine fc (runLRU pages fc) i).helper :=
      (hgood.2.2 _).mpr (contains_iff_mem.mp hcont)
    obtain ⟨_, _, hev⟩ := lruStepF_hit (pages.getD i 0) i
      (prevMachine fc (runLRU pages fc) i) hcont (contains_iff_mem.mpr hpmem)
    constructor
    · constructor
      · intro hne
        rw [hs, hev] at hne
        exact absurd rfl hne
      · rintro ⟨hmiss, _⟩
        rw [hisHit, hcont] at hmiss
        cases hmiss
    · intro v hv
      rw [hs, hev] at hv
      cases hv
  · rw [Bool.not_eq_true] at hcont
    by_cases hcontn : (prevMachine fc (runLRU pages fc) i).frames.contains
        none = true
    · obtain ⟨_, _, hev⟩ := lruStepF_load (pages.getD i 0) i
        (prevMachine fc (runLRU pages fc) i) hcont hcontn
      constructor
      · constructor
        · intro hne
          rw [hs, hev] at hne
          exact absurd rfl hne
        · rintro ⟨_, hn⟩
          rw [hcontn] at hn
          cases hn
      · intro v hv
        rw [hs, hev] at hv
        cases hv
    · rw [Bool.not_eq_true] at hcontn
      have hne : (prevMachine fc (runLRU pages fc) i).helper ≠ [] :=
        helper_ne_nil_of_full hfc1 hgood hcontn
      have hlast : (prevMachine fc (runLRU pages fc) i).helper.getLast? =
          some ((prevMachine fc (runLRU pages fc) i).helper.getLast hne) :=
        List.getLast?_eq_getLast _ hne
      obtain ⟨hf2, _, hev⟩ := lruStepF_evict (pages.getD i 0) i
        (prevMachine fc (runLRU pages fc) i)
        ((prevMachine fc (runLRU pages fc) i).helper.getLast hne)
        hcont hcontn hlast
      have hvmem : some ((prevMachine fc (runLRU pages fc) i).helper.getLast
          hne) ∈ (prevMachine fc (runLRU pages fc) i).frames :=
        (hgood.2.2 _).mp (List.getLast_mem hne)
      constructor
      · constructor
        · intro _
          exact ⟨by rw [hisHit]; exact hcont, hcontn⟩
        · intro _
          rw [hs, hev]
          simp
      · intro v' hv'
        rw [hs, hev] at hv'
        have hvv : (prevMachine fc (runLRU pages fc) i).helper.getLast hne =
            v' := Option.some.inj hv'
        subst hvv
        obtain ⟨l₁, l₂, hdec, hnl₁, hidx⟩ := indexOf_split hvmem
        refine ⟨l₁.length, ?_, ?_⟩
        · rw [hdec]
          exact get?_length_append _ _ _
        · rw [hpage, hs, hR.2.2.1, hf2, hidx]

theorem evictSpec_opt (pages : List Int) (fc : Nat) (hfc1 : 1 ≤ fc)
    (i : Nat) (hi : i < pages.length) :
    evictSpec fc (runOptimal pages fc) i := by
  have hs : snapAt (runOptimal pages fc) i =
      (optStepF pages (pages.getD i 0) i
        (prevMachine fc (runOptimal pages fc) i)).1 :=
    run_snap_eq (optStepF pages) (optStepF_reflects pages) pages fc i hi
  have hR := optStepF_reflects pages (pages.getD i 0) i
    (prevMachine fc (runOptimal pages fc) i)
  have hpage : (snapAt (runOptimal pages fc) i).page = pages.getD i 0 := by
    rw [hs]
    exact hR.1
  have hisHit : (snapAt (runOptimal pages fc) i).isHit =
      (prevMachine fc (runOptimal pages fc) i).frames.contains
        (some (pages.getD i 0)) := by
    rw [hs]
    exact optStepF_isHit pages _ _ _
  have hgoodF := prevMachine_good_opt pages fc i hi
  by_cases hcont : (prevMachine fc (runOptimal pages fc) i).frames.contains
      (some (pages.getD i 0)) = true
  · obtain ⟨_, hev⟩ := optStepF_hit pages (pages.getD i 0) i
      (prevMachine fc (runOptimal pages fc) i) hcont
    constructor
    · constructor
      · intro hne
        rw [hs, hev] at hne
        exact absurd rfl hne
      · rintro ⟨hmiss, _⟩
        rw [hisHit, hcont] at hmiss
        cases hmiss
    · intro v hv
      rw [hs, hev] at hv
      cases hv
  · rw [Bool.not_eq_true] at hcont
    by_cases hcontn : (prevMachine fc (runOptimal pages fc) i).frames.contains
        none = true
    · obtain ⟨_, hev⟩ := optStepF_load pages (pages.getD i 0) i
        (prevMachine fc (runOptimal pages fc) i) hcont hcontn
      constructor
      · constructor
        · intro hne
          rw [hs, hev] at hne
          exact absurd rfl hne
        · rintro ⟨_, hn⟩
          rw [hcontn] at hn
          cases hn
      · intro v hv
        rw [hs, hev] at hv
        cases hv
    · rw [Bool.not_eq_true] at hcontn
      obtain ⟨w, hw⟩ := resident_exists_of_full hfc1 hgoodF.1 hcontn
      rcases hk : jsIntKeys
          ((prevMachine fc (runOptimal pages fc) i).frames.filterMap id)
        with _ | ⟨k, ks⟩
      · exact absurd hk (jsIntKeys_ne_nil (mem_filterMap_id.mpr hw))
      · obtain ⟨hev, hf2⟩ := optStepF_evict pages (pages.getD i 0) i
          (prevMachine fc (runOptimal pages fc) i) k ks hcont hcontn hk
        have hm0 : (ks.foldl (fun a b =>
            if futGT (nextUse pages i a) (nextUse pages i b) then a
            else b) k) ∈ k :: ks := by
          rcases foldl_pick_mem (nextUse pages i) ks k with h | h
          · rw [h]
            exact List.mem_cons_self _ _
          · exact List.mem_cons_of_mem _ h
        rw [← hk] at hm0
        have hvmem : some (ks.foldl (fun a b =>
            if futGT (nextUse pages i a) (nextUse pages i b) then a
            else b) k) ∈ (prevMachine fc (runOptimal pages fc) i).frames :=
          mem_filterMap_id.mp ((mem_jsIntKeys _ _).mp hm0)
        constructor
        · constructor
          · intro _
            exact ⟨by rw [hisHit]; exact hcont, hcontn⟩
          · intro _
            rw [hs, hev]
            simp
        · intro v' hv'
          rw [hs, hev] at hv'
          have hvv : (ks.foldl (fun a b =>
              if futGT (nextUse pages i a) (nextUse pages i b) then a
              else b) k) = v' := Option.some.inj hv'
          rw [hvv] at hvmem hf2
          obtain ⟨l₁, l₂, hdec, hnl₁, hidx⟩ := indexOf_split hvmem
          refine ⟨l₁.length, ?_, ?_⟩
          · rw [hdec]
            exact get?_length_append _ _ _
          · rw [hpage, hs, hR.2.2.1, hf2, hidx]

/-- C10: for every valid input and each policy, a snapshot's evicted-page
field is populated exactly when the step is a replacement fault (a miss
with no empty slot before the step); on hits and compulsory faults it is
empty, and when populated the victim is replaced in place by the
referenced page at the victim's own frame index, every other slot
unchanged from the previous snapshot. -/
theorem evicted_iff_replacement (pages : List Int) (fc : Nat) (alg : String)
    (hist : List StepSnapshot) (hp : pages ≠ []) (hfc1 : 1 ≤ fc)
    (hfc10 : fc ≤ 10) (hrun : run pages fc alg = Except.ok hist)
    (i : Nat) (hi : i < pages.length) : evictSpec fc hist i := by
  rcases run_ok_cases pages fc alg hist hrun with ⟨_, rfl⟩ | ⟨_, rfl⟩ |
    ⟨_, rfl⟩
  · exact evictSpec_fifo pages fc hfc1 i hi
  · exact evictSpec_lru pages fc hfc1 i hi
  · exact evictSpec_opt pages fc hfc1 i hi

/-- C10 witness. -/
theorem evicted_iff_replacement_witness :
    evictSpec 2 (runLRU [1, 2, 3, 1] 2) 3 :=
  evicted_iff_replacement [1, 2, 3, 1] 2 "LRU" (runLRU [1, 2, 3, 1] 2)
    (by decide) (by decide) (by decide) rfl 3 (by decide)

/-! ### Claim C9: the execution log under playback -/

theorem applyN_succ_out {α : Type} (f : α → α) :
    ∀ (k : Nat) (a : α), applyN f (k + 1) a = f (applyN f k a) := by
  intro k
  induction k with
  | zero => intro a; rfl
  | succ j ih =>
    intro a
    show applyN f (j + 1) (f a) = _
    rw [ih (f a)]
    rfl

theorem drawCurrentState_cases (hist : List StepSnapshot) (b : Bool)
    (a : AnimatorState) :
    drawCurrentState hist b a = a ∨
    (b = false ∧ a.lastLoggedIndex < (a.currentIndex : Int) ∧
      a.currentIndex < hist.length ∧
      drawCurrentState hist b a =
        { a with log := a.log ++ [(snapAt hist a.currentIndex).message],
                 lastLoggedIndex := (a.currentIndex : Int) }) := by
  unfold drawCurrentState
  split
  · split
    · rename_i h1 h2
      exact Or.inr ⟨h2.1, h2.2, h1, rfl⟩
    · exact Or.inl rfl
  · exact Or.inl rfl

theorem animStepBackward_eq (hist : List StepSnapshot) (a : AnimatorState) :
    animStepBackward hist a =
      if a.currentIndex = 0 then a
      else { a with currentIndex := a.currentIndex - 1 } := by
  unfold animStepBackward
  split
  · rfl
  · unfold drawCurrentState
    split
    · split
      · rename_i hcond
        exact absurd hcond.1 (by decide)
      · rfl
    · rfl

theorem animStepForward_no_log (hist : List StepSnapshot) (a : AnimatorState)
    (hlt : a.currentIndex < hist.length - 1)
    (hwm : ((a.currentIndex + 1 : Nat) : Int) ≤ a.lastLoggedIndex) :
    animStepForward hist a = { a with currentIndex := a.currentIndex + 1 } := by
  unfold animStepForward
  rw [if_neg (by omega)]
  unfold drawCurrentState
  rw [if_pos (by simp; omega)]
  rw [if_neg ?_]
  intro hcond
  have h2 := hcond.2
  simp at h2
  omega

/-- A single playback operation either leaves the log and the watermark
untouched, or appends exactly the narration of the snapshot at the new
watermark, which strictly exceeds the old one — so the log is
append-only, monotone in snapshot order, and never repeats a step. -/
def logStepSpec (hist : List StepSnapshot) (a a' : AnimatorState) : Prop :=
  (a'.log = a.log ∧ a'.lastLoggedIndex = a.lastLoggedIndex) ∨
  (a'.lastLoggedIndex = (a'.currentIndex : Int) ∧
    a.lastLoggedIndex < a'.lastLoggedIndex ∧
    a'.currentIndex < hist.length ∧
    a'.log = a.log ++ [(snapAt hist a'.currentIndex).message])

/-- The full playback-log contract: renders log only fresh snapshots
(and never when suppressed or stepping backward), and stepping backward
`k` times then forward `k` times restores the controller state exactly —
hence the log matches uninterrupted forward playback. -/
def playbackLogSpec (hist : List StepSnapshot) : Prop :=
  (∀ (a : AnimatorState) (b : Bool),
    logStepSpec hist a (drawCurrentState hist b a)) ∧
  (∀ a : AnimatorState, (animStepBackward hist a).log = a.log ∧
    (animStepBackward hist a).lastLoggedIndex = a.lastLoggedIndex) ∧
  (∀ a : AnimatorState, logStepSpec hist a (animStepForward hist a)) ∧
  (∀ (a : AnimatorState) (k : Nat), k ≤ a.currentIndex →
    a.currentIndex < hist.length →
    (a.currentIndex : Int) ≤ a.lastLoggedIndex →
    applyN (animStepForward hist) k (applyN (animStepBackward hist) k a) = a)

/-- C9: the execution log is append-only and monotone in snapshot order
and never contains a step's narration twice: a render appends only when
the cursor exceeds the watermark, stepping backward renders without
logging, and stepping backward then forward over the same range leaves
the controller (hence log length and contents) exactly as uninterrupted
forward playback would. -/
theorem playback_log_append_only (hist : List StepSnapshot) :
    playbackLogSpec hist := by
  have hdraw : ∀ (a : AnimatorState) (b : Bool),
      logStepSpec hist a (drawCurrentState hist b a) := by
    intro a b
    rcases drawCurrentState_cases hist b a with h | ⟨_, hlt, hlen, h⟩
    · rw [h]
      exact Or.inl ⟨rfl, rfl⟩
    · rw [h]
      exact Or.inr ⟨rfl, hlt, hlen, rfl⟩
  refine ⟨hdraw, ?_, ?_, ?_⟩
  · intro a
    rw [animStepBackward_eq]
    split
    · exact ⟨rfl, rfl⟩
    · exact ⟨rfl, rfl⟩
  · intro a
    unfold animStepForward
    split
    · exact Or.inl ⟨rfl, rfl⟩
    · exact hdraw _ false
  · intro a k
    induction k generalizing a with
    | zero => intro _ _ _; rfl
    | succ j ih =>
      intro hk hlen hwm
      have hc1 : 1 ≤ a.currentIndex := by omega
      have hb : animStepBackward hist a =
          { a with currentIndex := a.currentIndex - 1 } := by
        rw [animStepBackward_eq, if_neg (by omega)]
      show applyN (animStepForward hist) (j + 1)
        (applyN (animStepBackward hist) j (animStepBackward hist a)) = a
      rw [applyN_succ_out, hb]
      rw [ih { a with currentIndex := a.currentIndex - 1 }
        (by simp; omega) (by simp; omega) (by simp; omega)]
      rw [animStepForward_no_log hist _ (by simp; omega) (by simp; omega)]
      have harith : a.currentIndex - 1 + 1 = a.currentIndex := by omega
      show ({ a with currentIndex := a.currentIndex - 1 + 1 } :
        AnimatorState) = a
      rw [harith]

/-- C9 witness. -/
theorem playback_log_append_only_witness :
    applyN (animStepForward (runFIFO [1, 2, 3] 1)) 1
      (applyN (animStepBackward (runFIFO [1, 2, 3] 1)) 1
        ⟨1, 1, ["a", "b"]⟩) = ⟨1, 1, ["a", "b"]⟩ :=
  (playback_log_append_only (runFIFO [1, 2, 3] 1)).2.2.2
    ⟨1, 1, ["a", "b"]⟩ 1 (by decide) (by decide) (by decide)

/-! ### Claim C4: the concrete scenario -/

/-- The reference string of the concrete textbook scenario. -/
def refStr13 : List Int := [7, 0, 1, 2, 0, 3, 0, 4, 2, 3, 0, 3, 2]

/-- C4 counterexample: on `[7,0,1,2,0,3,0,4,2,3,0,3,2]` with 3 frames the
engine does NOT produce 9 FIFO faults and 10 LRU faults — the two counts
are swapped (FIFO gives 10, LRU gives 9). -/
theorem scenario13_counts_refuted :
    ¬((snapAt (runFIFO refStr13 3) 12).stats.faults = 9 ∧
      (snapAt (runLRU refStr13 3) 12).stats.faults = 10 ∧
      (snapAt (runOptimal refStr13 3) 12).stats.faults ≤
        (snapAt (runFIFO refStr13 3) 12).stats.faults ∧
      (snapAt (runOptimal refStr13 3) 12).stats.faults ≤
        (snapAt (runLRU refStr13 3) 12).stats.faults) := by
  decide

/-- C4 amended: on `[7,0,1,2,0,3,0,4,2,3,0,3,2]` with 3 frames the FIFO
run produces exactly 10 faults, the LRU run exactly 9, the OPTIMAL run
exactly 7, and the OPTIMAL count is at most both of the others. -/
theorem scenario13_fault_counts :
    (runFIFO refStr13 3).length = 13 ∧
    (runLRU refStr13 3).length = 13 ∧
    (runOptimal refStr13 3).length = 13 ∧
    (snapAt (runFIFO refStr13 3) 12).stats.faults = 10 ∧
    (snapAt (runLRU refStr13 3) 12).stats.faults = 9 ∧
    (snapAt (runOptimal refStr13 3) 12).stats.faults = 7 ∧
    (snapAt (runOptimal refStr13 3) 12).stats.faults ≤
      (snapAt (runFIFO refStr13 3) 12).stats.faults ∧
    (snapAt (runOptimal refStr13 3) 12).stats.faults ≤
      (snapAt (runLRU refStr13 3) 12).stats.faults := by
  decide

end PageSim
